import Mathlib

/-!
Shallow embedding of the braid-group normal-form library `math_braid`
(files `math_braid/permutation.py`, `math_braid/canonical_factor.py`,
`math_braid/braid.py`), together with theorems settling the spec claims.

A `Permutation` is stored in array form, exactly as in the source: a list
`array_form` of length `size`, where `size = 0` denotes the wildcard
identity.  Canonical factors are `Permutation`s with extra operations
(`tau`, `createFromPair`, `dCycles`, `meet`), mirroring the subclass
`CanonicalFactor`.  Braids are triples `(n, p, a)` as in `Braid`.

Machine integers of the source are modelled as `Nat`/`Int`; Python's `%`
on a positive modulus coincides with `Int.emod`.  Operations that raise
(width mismatch in `Permutation.__mul__`) or return the `NotImplemented`
sentinel (width mismatch in `meet`, `Braid.__mul__`) are modelled as
`Option`-returning wrappers around the total core computation: `none`
models the failure.
-/

namespace MathBraid

/-- Array form of a permutation, as in `Permutation.__init__`:
`size` is the length of `array_form`, and size 0 is the wildcard identity. -/
structure Permutation where
  array_form : List Nat
deriving DecidableEq, Repr

namespace Permutation

/-- `self.size` (`len(self.array_form)`). -/
def size (x : Permutation) : Nat := x.array_form.length

/-- The wildcard identity `Permutation()` of size 0. -/
def one : Permutation := ⟨[]⟩

/-- Truthiness from `__nonzero__`: nonzero size and not the identity table. -/
def nontrivial (x : Permutation) : Bool :=
  decide (x.size ≠ 0) && decide (x.array_form ≠ List.range x.size)

/-- `__eq__` (note the source's asymmetric wildcard rule: the right operand
of size 0 matches any identity, but not conversely). -/
def eqb (x other : Permutation) : Bool :=
  if other.size = 0 then
    decide (x.size = 0) || decide (x.array_form = List.range x.size)
  else
    decide (x.array_form = other.array_form)

/-- `__invert__`: build `mapping` with `mapping[self.array_form[i]] = i`
for `i = 0, …, size-1` (starting from a zero-filled table). -/
def inv (x : Permutation) : Permutation :=
  if x.size = 0 then x
  else
    ⟨(List.range x.size).foldl
      (fun m i => m.set (x.array_form.getD i 0) i)
      (List.replicate x.size 0)⟩

/-- Core of `Permutation.__mul__` after the identity shortcuts:
`ans.array_form = list(map(other.array_form.__getitem__, self.array_form))`,
so `(x*y)[i] = y[x[i]]`.  The identity shortcuts of the source are included;
the width check lives in the wrapper `mul` below. -/
def mulCore (x y : Permutation) : Permutation :=
  if x.size = 0 then y
  else if y.size = 0 then x
  else ⟨x.array_form.map (fun i => y.array_form.getD i 0)⟩

/-- `Permutation.__mul__`: identity shortcuts, then the width check
(`raise TypeError('Incompatible operands')`, modelled as `none`),
then composition `(x*y)[i] = y[x[i]]`. -/
def mul (x y : Permutation) : Option Permutation :=
  if x.size = 0 then some y
  else if y.size = 0 then some x
  else if x.size ≠ y.size then none
  else some (mulCore x y)

/-- `CanonicalFactor.__mul__` delegates to `Permutation.__mul__` with the
operands swapped: `self * other = Permutation.__mul__(other, self)`,
so `(x*y)[i] = x[y[i]]`. -/
def cfMul (x y : Permutation) : Option Permutation := mul y x

/-- Unchecked form of `cfMul` for use inside the braid algorithms, where the
source applies it only to width-compatible (or identity) operands. -/
def cfMulCore (x y : Permutation) : Permutation := mulCore y x

end Permutation

namespace CanonicalFactor

open Permutation

/-- `CanonicalFactor.createFromPair([t,s], n)`.  The pair components stay
`Int` because `_tauband` manipulates them with signed arithmetic; at call
sites they are in `[1, n]`.  Python's `%` on the positive modulus `n` is
`Int.emod`. -/
def createFromPair (t s : Int) (n : Nat) : Permutation :=
  if t > s then
    ⟨((List.range n).set (t - 1).toNat (s - 1).toNat).set (s - 1).toNat (t - 1).toNat⟩
  else if t < s then
    ⟨(((n - 1) :: List.range (n - 1)).set (t - 1).toNat ((s - 2).emod n).toNat).set
      (s - 1).toNat ((t - 2).emod n).toNat⟩
  else
    ⟨List.range n⟩

/-- `CanonicalFactor.tau(power)`:
`new[i] = (old[(i - power) % n] + power) % n`. -/
def tau (x : Permutation) (power : Int) : Permutation :=
  ⟨(List.range x.size).map (fun i : Nat =>
    (((x.array_form.getD ((((i : Nat) : Int) - power).emod x.size).toNat 0 : Int)
      + power).emod x.size).toNat)⟩

/-- `numTranspositions`: the number of indices `i` with `array_form[i] < i`. -/
def numTranspositions (x : Permutation) : Nat :=
  ((List.range x.size).filter (fun i => decide (x.array_form.getD i 0 < i))).length

/-- `getTranspositions`: emit `[i+1, array_form[i]+1]` for ascending `i`
with `array_form[i] < i`, then reverse. -/
def getTranspositions (x : Permutation) : List (Nat × Nat) :=
  (((List.range x.size).filter (fun i => decide (x.array_form.getD i 0 < i))).map
    (fun i => (i + 1, x.array_form.getD i 0 + 1))).reverse

/-- `d_cycles`: starting from `list(range(n))`, scan `i = n-1, …, 0` and set
`cycles[array_form[i]] := cycles[i]` whenever `array_form[i] < i`. -/
def dCycles (x : Permutation) : List Nat :=
  (List.range x.size).reverse.foldl
    (fun c i =>
      if x.array_form.getD i 0 < i then c.set (x.array_form.getD i 0) (c.getD i 0) else c)
    (List.range x.size)

/-- `createFromDcycle`: walk `i = 0, …, n-1` keeping, for each cycle label, the
previous index carrying that label (`prev`, modelled with `Option Nat` for the
source's `-1` sentinel); the first index of a label maps to the label itself,
every later one to the previous index.  Every entry of the result is written
during the walk, so the source's `-1` initial fill is modelled by zeros. -/
def createFromDcycle (d : List Nat) : Permutation :=
  let n := d.length
  let res := (List.range n).foldl
    (fun (st : List (Option Nat) × List Nat) i =>
      let di := d.getD i 0
      match st.1.getD di none with
      | none => (st.1.set di (some i), st.2.set i di)
      | some pv => (st.1.set di (some i), st.2.set i pv))
    (List.replicate n none, List.replicate n 0)
  ⟨res.2⟩

/-- Comparison used to model Python's
`order.sort(key=lambda x: (self_d_cycles[x], other_d_cycles[x]))`:
Python's sort is stable, and on the duplicate-free list `range(n)` a stable
sort by the key pair equals any sort by the key pair extended with the index
as final tiebreaker.  `keyLe sc oc a b` is that extended lexicographic order. -/
def keyLe (sc oc : List Nat) (a b : Nat) : Bool :=
  decide (sc.getD a 0 < sc.getD b 0) ||
    (decide (sc.getD a 0 = sc.getD b 0) &&
      (decide (oc.getD a 0 < oc.getD b 0) ||
        (decide (oc.getD a 0 = oc.getD b 0) && decide (a ≤ b))))

/-- The ascending sorted index order realized with insertion sort (in place
of Python's timsort): with the total antisymmetric comparison `keyLe` the
sorted result is unique, so the choice of algorithm is immaterial. -/
def sortLe (le : Nat → Nat → Bool) (l : List Nat) : List Nat :=
  List.insertionSort (fun a b => le a b = true) l

/-- The grouping scan of `meet`: `j` is the current group leader; an index
`x` joins the group when both cycle values match the leader's, otherwise it
starts a new group; `d_cycles[x] := j` either way. -/
def groupScan (sc oc : List Nat) : Nat → List Nat → List Nat → List Nat
  | _, dc, [] => dc
  | j, dc, x :: xs =>
      let j' := if sc.getD j 0 ≠ sc.getD x 0 ∨ oc.getD j 0 ≠ oc.getD x 0 then x else j
      groupScan sc oc j' (dc.set x j') xs

/-- Core of `meet` when both operands have the same nonzero size:
compute both descending-cycle arrays, sort the indices by the pair of cycle
values (descending), scan to merge equal pairs into groups, and rebuild a
permutation from the grouped cycle array. -/
def meetCore (x y : Permutation) : Permutation :=
  let n := x.size
  let sc := dCycles x
  let oc := dCycles y
  let order := (sortLe (keyLe sc oc) (List.range n)).reverse
  match order with
  | [] => Permutation.one
  | j0 :: rest => createFromDcycle (groupScan sc oc j0 (List.replicate n j0) rest)

/-- The pair of descending-cycle values at an index: the sort key of `meet`
(without the index tiebreak). -/
def cyclePair (sc oc : List Nat) (i : Nat) : Nat × Nat :=
  (sc.getD i 0, oc.getD i 0)

/-- The largest index below `n` whose pair of cycle values agrees with that
of `i` — the group leader that the sorted grouping scan of `meet` assigns
to `i`. -/
def classMax (sc oc : List Nat) (n i : Nat) : Nat :=
  ((List.range n).filter
    (fun j => decide (cyclePair sc oc j = cyclePair sc oc i))).foldr max 0

/-- The first element of `l` with the same cycle-value pair as `i`
(`i` itself when none occurs): the leader the grouping scan assigns while
consuming `l`. -/
def firstSame (sc oc : List Nat) (l : List Nat) (i : Nat) : Nat :=
  ((l.filter (fun j => decide (cyclePair sc oc j = cyclePair sc oc i))).headD i)

/-- The grouped cycle array produced by `meet` for width `n`, described
denotationally: every index is labelled by its class leader `classMax`. -/
def meetLabels (sc oc : List Nat) (n : Nat) : List Nat :=
  (List.range n).map (classMax sc oc n)

/-- Structural-recursion form of the `d_cycles` loop: `dScan arr i c`
processes indices `i-1, …, 0` in descending order.  `dCycles x` equals
`dScan x.array_form x.size (range x.size)` (proved below). -/
def dScan (arr : List Nat) : Nat → List Nat → List Nat
  | 0, c => c
  | i + 1, c =>
      dScan arr i
        (if arr.getD i 0 < i then c.set (arr.getD i 0) (c.getD i 0) else c)

/-- Indices below `i` carrying the same label as `i` in the labelling
`lab` — the earlier occurrences of `i`'s cycle. -/
def belowSame (lab : List Nat) (i : Nat) : List Nat :=
  (List.range i).filter (fun j => decide (lab.getD j 0 = lab.getD i 0))

/-- The largest index below `n` carrying the same label as `i`. -/
def classMaxOf (lab : List Nat) (n i : Nat) : Nat :=
  ((List.range n).filter
    (fun j => decide (lab.getD j 0 = lab.getD i 0))).foldr max 0

/-- The value that `createFromDcycle` assigns at `i`: the previous occurrence
of `i`'s label, or the label itself for a first occurrence. -/
def prevSame (lab : List Nat) (i : Nat) : Nat :=
  if belowSame lab i = [] then lab.getD i 0 else (belowSame lab i).foldr max 0

/-- The cyclic predecessor of `i` inside its label class: the previous
occurrence when one exists, otherwise the class maximum (the wrap-around
step of a descending cycle).  Coincides with `prevSame` on labellings whose
labels are the class maxima. -/
def cycPred (lab : List Nat) (n i : Nat) : Nat :=
  if belowSame lab i = [] then classMaxOf lab n i
  else (belowSame lab i).foldr max 0

/-- Strictly larger same-label indices below `n`. -/
def aboveSame (lab : List Nat) (n i : Nat) : List Nat :=
  (List.range n).filter
    (fun j => decide (lab.getD j 0 = lab.getD i 0) && decide (i < j))

/-- `r` is the first element of `i`'s class (under the relation `E`) that a
downward cyclic walk from `i` meets: `r = (i + n - d) % n` for the least
positive step count `d ≤ n` landing in the class. -/
def isCycPredRel (E : Nat → Nat → Prop) (n i r : Nat) : Prop :=
  ∃ d, 1 ≤ d ∧ d ≤ n ∧ r = (i + n - d) % n ∧ E i r ∧
    ∀ e, 1 ≤ e → e < d → ¬ E i ((i + n - e) % n)

/-- The labelling relation of a cycle array: equal labels. -/
def labRel (lab : List Nat) (i j : Nat) : Prop :=
  lab.getD i 0 = lab.getD j 0

/-- The labelling transported along the downward shift by `pn` (the `τ`
rotation on classes): position `i` receives the label of `(i + n - pn) % n`. -/
def labShift (lab : List Nat) (n pn : Nat) : List Nat :=
  (List.range n).map (fun i => lab.getD ((i + n - pn) % n) 0)

/-- The loop body of `createFromDcycle`, named so that the fold can be
reasoned about (definitionally equal to the inline body). -/
def cfdStep (lab : List Nat) (st : List (Option Nat) × List Nat) (i : Nat) :
    List (Option Nat) × List Nat :=
  let di := lab.getD i 0
  match st.1.getD di none with
  | none => (st.1.set di (some i), st.2.set i di)
  | some pv => (st.1.set di (some i), st.2.set i pv)

/-- `meetCore` preceded by the identity shortcut of the source
(either operand of size 0 yields the size-0 identity); total because the
braid algorithms only ever apply it to width-compatible operands. -/
def meetTotal (x y : Permutation) : Permutation :=
  if x.size = 0 ∨ y.size = 0 then Permutation.one else meetCore x y

/-- `CanonicalFactor.meet`: identity shortcut when either operand has size 0,
`NotImplemented` (modelled `none`) on a width mismatch, else `meetCore`. -/
def meet (x y : Permutation) : Option Permutation :=
  if x.size = 0 ∨ y.size = 0 then some Permutation.one
  else if x.size ≠ y.size then none
  else some (meetCore x y)

end CanonicalFactor

/-- A braid in left-greedy normal form `D^p · a_1 · … · a_k`
(`Braid` in `braid.py`): width `n`, power `p` of the fundamental element,
and the list `a` of canonical factors (`k` is `a.length`). -/
structure Braid where
  n : Nat
  p : Int
  a : List Permutation
deriving DecidableEq, Repr

namespace Braid

open Permutation CanonicalFactor

/-- `Braid.d(n)`: the fundamental factor `D` of `B_n`,
`[n-1] + list(range(0, n-1))`. -/
def d (n : Nat) : Permutation := ⟨(n - 1) :: List.range (n - 1)⟩

/-- `Braid._tauband(generator, n, power)`: add `power` to both components,
record the orientation, reduce each component into `[1, n]` by
`(g - 1) % n + 1`, and swap the components back if the reduction flipped
the orientation. -/
def tauband (g : Int × Int) (n : Nat) (power : Int) : Int × Int :=
  if power = 0 then g
  else
    let g0 := g.1 + power
    let g1 := g.2 + power
    let pos := decide (g0 > g1)
    let g0' := (g0 - 1).emod n + 1
    let g1' := (g1 - 1).emod n + 1
    if pos ≠ decide (g0' > g1') then (g1', g0') else (g0', g1')

/-- Artin-word to band-word conversion from `Braid.__init__`: positive `x`
becomes `[x+1, x]`, negative `x` becomes `[-x, 1-x]`; out-of-range entries
are silently dropped (the source's loop appends nothing for them). -/
def artinToBand (w : List Int) (n : Nat) : List (Int × Int) :=
  w.filterMap (fun x =>
    if 0 < x ∧ x < (n : Int) then some (x + 1, x)
    else if -(n : Int) < x ∧ x < 0 then some (-x, 1 - x)
    else none)

/-- The sign-extraction/τ-shift scan of `Braid.__init__`: walk
`i = len-2, …, 0`; decrement `p` when the (already shifted) right neighbour
is negative, then shift generator `i` in place by `τ^p`. -/
def signTauScan (gens : List (Int × Int)) (n : Nat) : List (Int × Int) × Int :=
  (List.range (gens.length - 1)).reverse.foldl
    (fun (st : List (Int × Int) × Int) i =>
      let gnext := st.1.getD (i + 1) (0, 0)
      let p' := if gnext.1 < gnext.2 then st.2 - 1 else st.2
      (st.1.set i (tauband (st.1.getD i (0, 0)) n p'), p'))
    (gens, 0)

/-- One step of the inner `for j in range(rightmost, leftmost, -1)` loop of
the normalization sweep.  State: `(a, rightmost, newleft, meets)` where
`meets` counts the `meet` evaluations performed. -/
def passStep (n : Nat) (st : List Permutation × Int × Int × Nat) (j : Nat) :
    List Permutation × Int × Int × Nat :=
  let (a, rm, nl, meets) := st
  let aj := a.getD j Permutation.one
  let ajp1 := a.getD (j + 1) Permutation.one
  let b := meetTotal (cfMulCore (Permutation.inv aj) (d n)) ajp1
  if nontrivial b then
    let ajplus := cfMulCore (Permutation.inv b) ajp1
    let a1 :=
      if nontrivial ajplus then a.set (j + 1) ajplus
      else a.set (j + 1) Permutation.one
    let rm' := if ¬nontrivial ajplus ∧ rm = (j : Int) then rm - 1 else rm
    (a1.set j (cfMulCore aj b), rm', (j : Int), meets + 1)
  else (a, rm, nl, meets + 1)

/-- One full right-to-left pass over the window `(leftmost, rightmost]`. -/
def pass (n : Nat) (a : List Permutation) (lm rm : Int) (meets : Nat) :
    List Permutation × Int × Int × Nat :=
  (((List.range' (lm + 1).toNat (rm - lm).toNat).reverse).foldl
    (passStep n) (a, rm, rm, meets))

/-- The outer `while leftmost < rightmost` loop, with explicit fuel.
Each pass strictly increases `leftmost` while never increasing `rightmost`
(proved below), so fuel `(rm - lm).toNat` always reaches the loop's genuine
exit; the braid constructor passes the factor-list length, which dominates
the initial measure. -/
def sweep (n : Nat) : Nat → List Permutation → Int → Int → Nat →
    List Permutation × Int × Nat
  | 0, a, _, rm, meets => (a, rm, meets)
  | fuel + 1, a, lm, rm, meets =>
      if lm < rm then
        let st := pass n a lm rm meets
        sweep n fuel st.1 st.2.2.1 st.2.1 st.2.2.2
      else (a, rm, meets)

/-- The cleanup after the sweep in `Braid.__init__`: truncate the list at
`rightmost + 2`, delete trailing falsy (identity) factors, then delete
leading factors equal to `D`, bumping `p` once per deletion. -/
def cleanup (n : Nat) (p : Int) (a : List Permutation) (rm : Int) : Braid :=
  let a2 := a.take (rm + 2).toNat
  let a3 := (a2.reverse.dropWhile (fun x => !nontrivial x)).reverse
  let a4 := a3.dropWhile (fun x => decide (x.array_form = (d n).array_form))
  ⟨n, p + ((a3.length : Int) - (a4.length : Int)), a4⟩

/-- `Braid.__init__` from a canonical-factor list (power given): run the
normalization sweep and the cleanup.  The source seeds
`leftmost = -1`, `rightmost = l - 2`. -/
def fromFactors (obj : List Permutation) (n : Nat) (p : Int) : Braid :=
  if obj = [] then ⟨n, p, []⟩
  else
    let l := obj.length
    let st := sweep n l obj (-1) ((l : Int) - 2) 0
    cleanup n p st.1 st.2.1

/-- `Braid.__init__` from a band-generator word: the sign/τ-shift scan, the
extra decrement for a negative leftmost generator, conversion of every pair
through `createFromPair`, then the sweep and cleanup. -/
def fromBand (gens : List (Int × Int)) (n : Nat) : Braid :=
  if gens = [] then ⟨n, 0, []⟩
  else
    let sp := signTauScan gens n
    let g0 := sp.1.getD 0 (0, 0)
    let p := if g0.1 < g0.2 then sp.2 - 1 else sp.2
    fromFactors (sp.1.map (fun g => createFromPair g.1 g.2 n)) n p

/-- `Braid.__init__` from an Artin-generator word. -/
def ofArtin (w : List Int) (n : Nat) : Braid :=
  if w = [] then ⟨n, 0, []⟩
  else fromBand (artinToBand w n) n

/-- `k`: number of canonical factors. -/
def k (x : Braid) : Nat := x.a.length

/-- Truthiness of a braid (`__nonzero__`): `p != 0 or k != 0`. -/
def nontrivB (x : Braid) : Bool := decide (x.p ≠ 0) || decide (x.a ≠ [])

/-- `Braid.__mul__`: identity shortcuts either side (before any width
check), `NotImplemented` (modelled `none`) on a width mismatch, else
τ-shift the left factors by `other.p`, concatenate, and renormalize. -/
def mul (x y : Braid) : Option Braid :=
  if ¬nontrivB x then some y
  else if ¬nontrivB y then some x
  else if x.n ≠ y.n then none
  else some (fromFactors ((x.a.map (fun f => tau f y.p)) ++ y.a) x.n (x.p + y.p))

/-- `Braid.__invert__`: for `i = k-1, …, 0` collect
`(~a[i] * d).tau(-p - i - 1)`, and renormalize with power `-p - k`. -/
def inv (x : Braid) : Braid :=
  if ¬nontrivB x then x
  else
    let dn := d x.n
    let kk := x.a.length
    let a := (List.range kk).reverse.map (fun i =>
      tau (cfMulCore (Permutation.inv (x.a.getD i Permutation.one)) dn)
        (-x.p - (i : Int) - 1))
    fromFactors a x.n (-x.p - (kk : Int))

/-- Python's `str` of a list of integers: `[v0, v1, ..., vk]`. -/
def pyNatListStr (l : List Nat) : String :=
  "[" ++ String.intercalate ", " (l.map (fun v => toString v)) ++ "]"

/-- `CanonicalFactor.__repr__`: `CanonicalFactor(%s) % str(self)`. -/
def cfRepr (x : Permutation) : String :=
  "CanonicalFactor(" ++ pyNatListStr x.array_form ++ ")"

/-- `Braid.__str__`: `'[%s] D^(%s) * %s' % (self.n, self.p, self.a)`, where
`self.a` prints as a Python list of the factors' ``repr``s. -/
def toStr (b : Braid) : String :=
  "[" ++ toString b.n ++ "] D^(" ++ toString b.p ++ ") * [" ++
    String.intercalate ", " (b.a.map cfRepr) ++ "]"

/-- Python's `\s` class (`[ \t\n\r\f\v]`). -/
def isSpaceChar (c : Char) : Bool :=
  c = ' ' || c = '\t' || c = '\n' || c = '\r' || c = '\x0c' || c = '\x0b'

/-- ASCII digit test, modelling the regex class `[0-9]`. -/
def isDigitChar (c : Char) : Bool := decide ('0' ≤ c) && decide (c ≤ '9')

/-- The character class of the regex's third group: `[0-9,\[\]\s]`. -/
def isBodyChar (c : Char) : Bool :=
  isDigitChar c || c = ',' || c = '[' || c = ']' || isSpaceChar c

/-- Match a literal prefix, returning the remainder. -/
def expectLit (pre l : List Char) : Option (List Char) :=
  if l.take pre.length = pre then some (l.drop pre.length) else none

/-- The anchored regex of the string constructor,
`^[\s]*\[([0-9]+)\] D\^\((-?[0-9]+)\) \* \[([0-9,\[\]\s]*)\][\s]*$`,
modelled as a deterministic matcher returning the three groups.
The greedy third group together with the mandatory `\]` and trailing
whitespace is realized by peeling the maximal whitespace suffix (the final
`]` is not whitespace, so the maximal suffix is the matched one) and then
requiring a closing bracket and an all-body-class middle. -/
def reGroups (s : List Char) : Option (List Char × List Char × List Char) :=
  match s.dropWhile isSpaceChar with
  | '[' :: t =>
    let ds := t.takeWhile isDigitChar
    if ds = [] then none else
    match expectLit "] D^(".toList (t.dropWhile isDigitChar) with
    | none => none
    | some r1 =>
      let sg : List Char := match r1 with
        | '-' :: _ => ['-']
        | _ => []
      let r2 := if sg = [] then r1 else r1.drop 1
      let ps := r2.takeWhile isDigitChar
      if ps = [] then none else
      match expectLit ") * [".toList (r2.dropWhile isDigitChar) with
      | none => none
      | some r3 =>
        match (r3.reverse.dropWhile isSpaceChar : List Char) with
        | ']' :: revBody =>
          let body := revBody.reverse
          if body.all isBodyChar then some (ds, sg ++ ps, body) else none
        | _ => none
  | _ => none

/-- Digits to a natural number. -/
def natOfDigits (l : List Char) : Nat :=
  l.foldl (fun a c => a * 10 + (c.toNat - '0'.toNat)) 0

/-- Python `int(str)` on an already stripped token: optional sign followed by
at least one digit; anything else raises `ValueError` (modelled `none`). -/
def intOfToken (l : List Char) : Option Int :=
  match l with
  | '-' :: ds => if ds ≠ [] ∧ ds.all isDigitChar then some (-(natOfDigits ds : Int)) else none
  | ds => if ds ≠ [] ∧ ds.all isDigitChar then some (natOfDigits ds) else none

/-- Split a character list at commas (Python `str.split(',')`). -/
def splitComma (l : List Char) : List (List Char) :=
  l.foldr
    (fun c acc =>
      match acc with
      | [] => if c = ',' then [[], []] else [[c]]
      | h :: t => if c = ',' then [] :: h :: t else (c :: h) :: t)
    [[]]

/-- `x.strip().strip('[]')`: remove surrounding whitespace, then surrounding
square brackets. -/
def stripToken (l : List Char) : List Char :=
  let w := (l.dropWhile isSpaceChar).reverse.dropWhile isSpaceChar |>.reverse
  (w.dropWhile (fun c => c = '[' || c = ']')).reverse.dropWhile
    (fun c => c = '[' || c = ']') |>.reverse

/-- `while m: a, m = m[:n], m[n:]` — chunk the flat value list into factor
tables of length `n`; fuel `l.length` covers every terminating run of the
source loop (for `n = 0` the source loops forever, which no caller reaches). -/
def chunksOf (n : Nat) : Nat → List Nat → List (List Nat)
  | 0, _ => []
  | _, [] => []
  | fuel + 1, l => l.take n :: chunksOf n fuel (l.drop n)

/-- The string branch of `Braid.__init__`: regex match (`none` models the
`NotImplemented` escape, a `TypeError` at runtime), integer conversion of the
groups, comma-split/strip/`int` of the factor block, and chunking into
factors of width `n`. -/
def parse (s : String) : Option Braid :=
  match reGroups s.toList with
  | none => none
  | some (ds, psgn, body) =>
    let n := natOfDigits ds
    let p : Int := match intOfToken psgn with
      | some v => v
      | none => 0
    if body = [] then some ⟨n, p, []⟩
    else
      match (splitComma body).mapM (fun t => intOfToken (stripToken t)) with
      | none => none
      | some vals =>
        let nats := vals.map Int.toNat
        some ⟨n, p, (chunksOf n nats.length nats).map (fun c => ⟨c⟩)⟩

end Braid

namespace CanonicalFactor

/-- The table is a genuine permutation of `{0, …, size-1}` (the data-model
contract "total bijection" of a `Permutation` value). -/
def isPermTable (x : Permutation) : Prop :=
  x.array_form.Perm (List.range x.size)

instance (x : Permutation) : Decidable (isPermTable x) := by
  unfold isPermTable; infer_instance

/-- The representation invariant of a canonical factor: the permutation is a
disjoint union of descending cycles, i.e. rebuilding it from its own
descending-cycle array is the identity.  This is the code's own
characterization (`createFromDcycle` inverts `d_cycles` exactly on such
permutations). -/
def isCanonical (x : Permutation) : Prop :=
  createFromDcycle (dCycles x) = x

instance (x : Permutation) : Decidable (isCanonical x) := by
  unfold isCanonical; infer_instance

end CanonicalFactor

section Claims

open MathBraid MathBraid.Permutation MathBraid.CanonicalFactor MathBraid.Braid

/-- C6: for `Permutation` values of the same nonzero size `n` and any index
`i < n`, composition satisfies `(self*other)[i] = other[self[i]]` — apply
`self` first, then `other`. -/
theorem C6_perm_mul_apply (x y : Permutation) (n : Nat) (hx : x.size = n)
    (hy : y.size = n) (hn : n ≠ 0) (i : Nat) (hi : i < n) :
    ∃ z, Permutation.mul x y = some z ∧
      z.array_form.getD i 0 = y.array_form.getD (x.array_form.getD i 0) 0 := by
  have hx0 : ¬ x.size = 0 := by omega
  have hy0 : ¬ y.size = 0 := by omega
  have hxy : ¬ x.size ≠ y.size := by omega
  refine ⟨Permutation.mulCore x y, ?_, ?_⟩
  · simp [Permutation.mul, hx0, hy0, hxy]
  · simp only [Permutation.mulCore, if_neg hx0, if_neg hy0]
    have hi' : i < x.array_form.length := by
      unfold Permutation.size at hx; omega
    simp [List.getD_eq_getElem?_getD, List.getElem?_map,
      List.getElem?_eq_getElem hi']

/-- Witness for C6 at the doctest values `x = [0,1,3,2,4]`, `y = [2,3,4,0,1]`,
`i = 2`. -/
theorem C6_perm_mul_apply_witness :
    ∃ z, Permutation.mul ⟨[0, 1, 3, 2, 4]⟩ ⟨[2, 3, 4, 0, 1]⟩ = some z ∧
      z.array_form.getD 2 0 =
        (Permutation.array_form ⟨[2, 3, 4, 0, 1]⟩).getD
          ((Permutation.array_form ⟨[0, 1, 3, 2, 4]⟩).getD 2 0) 0 :=
  C6_perm_mul_apply ⟨[0, 1, 3, 2, 4]⟩ ⟨[2, 3, 4, 0, 1]⟩ 5 rfl rfl
    (by decide) 2 (by decide)

/-- C10: `CanonicalFactor` multiplication delegates to `Permutation`
multiplication with swapped arguments, so `(a*b)[i] = a[b[i]]` — the
opposite operand order to C6. -/
theorem C10_cf_mul_apply (x y : Permutation) (n : Nat) (hx : x.size = n)
    (hy : y.size = n) (hn : n ≠ 0) (i : Nat) (hi : i < n) :
    ∃ z, Permutation.cfMul x y = some z ∧
      z.array_form.getD i 0 = x.array_form.getD (y.array_form.getD i 0) 0 := by
  have hx0 : ¬ x.size = 0 := by omega
  have hy0 : ¬ y.size = 0 := by omega
  have hxy : ¬ y.size ≠ x.size := by omega
  refine ⟨Permutation.mulCore y x, ?_, ?_⟩
  · simp [Permutation.cfMul, Permutation.mul, hx0, hy0, hxy]
  · simp only [Permutation.mulCore, if_neg hx0, if_neg hy0]
    have hi' : i < y.array_form.length := by
      unfold Permutation.size at hy; omega
    simp [List.getD_eq_getElem?_getD, List.getElem?_map,
      List.getElem?_eq_getElem hi']

/-- Witness for C10 at the doctest values
`CanonicalFactor([0,2,1]) * CanonicalFactor([1,2,0]) = [2,1,0]`, `i = 0`. -/
theorem C10_cf_mul_apply_witness :
    ∃ z, Permutation.cfMul ⟨[0, 2, 1]⟩ ⟨[1, 2, 0]⟩ = some z ∧
      z.array_form.getD 0 0 =
        (Permutation.array_form ⟨[0, 2, 1]⟩).getD
          ((Permutation.array_form ⟨[1, 2, 0]⟩).getD 0 0) 0 :=
  C10_cf_mul_apply ⟨[0, 2, 1]⟩ ⟨[1, 2, 0]⟩ 3 rfl rfl (by decide) 0 (by decide)

/-- C7: the two concrete factor counts of the spec:
`Braid([1,2,-1,-2],5).k == 2` and `Braid([1,2,-1,2],5).k == 4`. -/
theorem C7_factor_counts :
    (Braid.ofArtin [1, 2, -1, -2] 5).k = 2 ∧
      (Braid.ofArtin [1, 2, -1, 2] 5).k = 4 := by
  constructor <;> decide

/-- C8 counterexample: an identity braid of width 5 times a non-identity
braid of width 3 — two operands of differing nonzero widths — does not fail:
the identity shortcut of `Braid.__mul__` returns the right operand before
any width check, contradicting the claim that every such operation fails. -/
theorem C8_counterexample :
    (Braid.mk 5 0 []).n = 5 ∧ (Braid.ofArtin [1] 3).n = 3 ∧
      Braid.mul ⟨5, 0, []⟩ (Braid.ofArtin [1] 3) =
        some (Braid.ofArtin [1] 3) := by
  refine ⟨rfl, by decide, by decide⟩

/-- C8 amended: a binary operation between operands of differing nonzero
widths fails explicitly (permutation composition raises, meet and braid
multiplication return the `NotImplemented` sentinel, all modelled `none`) —
provided neither braid operand is an identity braid, since `Braid.__mul__`'s
identity shortcuts return the other operand before any width check.
For permutations and `meet` the shortcut applies only to size-0 operands,
which the nonzero-width hypothesis already rules out. -/
theorem C8_amended_width_mismatch (x y : Permutation) (bx bY : Braid)
    (hx : x.size ≠ 0) (hy : y.size ≠ 0) (hxy : x.size ≠ y.size)
    (hbx : Braid.nontrivB bx = true) (hby : Braid.nontrivB bY = true)
    (hb : bx.n ≠ bY.n) :
    Permutation.mul x y = none ∧ CanonicalFactor.meet x y = none ∧
      Braid.mul bx bY = none := by
  refine ⟨?_, ?_, ?_⟩
  · simp [Permutation.mul, hx, hy, hxy]
  · simp [CanonicalFactor.meet, hx, hy, hxy]
  · simp [Braid.mul, hbx, hby, hb]

/-- Witness for C8 amended: width-3 versus width-5 operands. -/
theorem C8_amended_width_mismatch_witness :
    Permutation.mul ⟨[1, 0, 2]⟩ ⟨[0, 1, 2, 3, 4]⟩ = none ∧
      CanonicalFactor.meet ⟨[1, 0, 2]⟩ ⟨[0, 1, 2, 3, 4]⟩ = none ∧
      Braid.mul (Braid.ofArtin [1] 3) (Braid.ofArtin [1] 5) = none :=
  C8_amended_width_mismatch ⟨[1, 0, 2]⟩ ⟨[0, 1, 2, 3, 4]⟩
    (Braid.ofArtin [1] 3) (Braid.ofArtin [1] 5)
    (by decide) (by decide) (by decide) (by decide) (by decide) (by decide)

/-- C3 (code bug): `str` of `Braid([1], 3)` renders each factor through
`CanonicalFactor.__repr__` as `CanonicalFactor([...])`, but the string
constructor's regex only accepts digits, commas, brackets and whitespace in
the factor block, so parsing the printed form fails (`NotImplemented`,
a `TypeError` at runtime) instead of returning an equal braid. -/
theorem C3_roundtrip_code_bug :
    Braid.toStr (Braid.ofArtin [1] 3) =
        "[3] D^(0) * [CanonicalFactor([1, 0, 2])]" ∧
      Braid.parse (Braid.toStr (Braid.ofArtin [1] 3)) = none := by
  constructor <;> decide

end Claims

section SweepTermination

open MathBraid.Permutation MathBraid.CanonicalFactor MathBraid.Braid

/-- One step of the inner pass: the tracked leftmost transfer either stays or
becomes the scanned index, the right boundary never grows (it is decremented
at most once), and exactly one meet is evaluated. -/
theorem passStep_spec (n : Nat) (st : List Permutation × Int × Int × Nat)
    (j : Nat) :
    ((Braid.passStep n st j).2.2.1 = st.2.2.1 ∨
        (Braid.passStep n st j).2.2.1 = (j : Int)) ∧
      ((Braid.passStep n st j).2.1 = st.2.1 ∨
        (Braid.passStep n st j).2.1 = st.2.1 - 1) ∧
      (Braid.passStep n st j).2.2.2 = st.2.2.2 + 1 := by
  obtain ⟨a, rm, nl, meets⟩ := st
  unfold Braid.passStep
  dsimp only
  split
  · refine ⟨Or.inr rfl, ?_, rfl⟩
    dsimp only
    split
    · exact Or.inr rfl
    · exact Or.inl rfl
  · exact ⟨Or.inl rfl, Or.inl rfl, rfl⟩

/-- Folding the inner pass over any index list keeps the leftmost-transfer
marker at or above any lower bound satisfied by the start marker and all
scanned indices, never grows the right boundary, and evaluates exactly one
meet per scanned index. -/
theorem passStep_fold_bounds (n : Nat) (js : List Nat)
    (st : List Permutation × Int × Int × Nat) (L R : Int)
    (hjs : ∀ j ∈ js, L ≤ (j : Int)) (h1 : L ≤ st.2.2.1) (h2 : st.2.1 ≤ R) :
    L ≤ (js.foldl (Braid.passStep n) st).2.2.1 ∧
      (js.foldl (Braid.passStep n) st).2.1 ≤ R ∧
      (js.foldl (Braid.passStep n) st).2.2.2 = st.2.2.2 + js.length := by
  induction js generalizing st with
  | nil => simpa using ⟨h1, h2⟩
  | cons j js ih =>
    simp only [List.foldl_cons, List.length_cons]
    obtain ⟨s1, s2, s3⟩ := passStep_spec n st j
    have hj : L ≤ (j : Int) := hjs j (by simp)
    have h1' : L ≤ (Braid.passStep n st j).2.2.1 := by
      rcases s1 with h | h <;> omega
    have h2' : (Braid.passStep n st j).2.1 ≤ R := by
      rcases s2 with h | h <;> omega
    obtain ⟨a1, a2, a3⟩ := ih (Braid.passStep n st j)
      (fun x hx => hjs x (by simp [hx])) h1' h2'
    exact ⟨a1, a2, by omega⟩

/-- Bounds for one full pass: starting from window `(lm, rm)` with
`-1 ≤ lm < rm`, the new left boundary is strictly above `lm`, the new right
boundary is at most `rm`, and exactly `(rm - lm)` meets are evaluated. -/
theorem pass_bounds (n : Nat) (a : List Permutation) (lm rm : Int) (m : Nat)
    (hlm : -1 ≤ lm) (h : lm < rm) :
    lm + 1 ≤ (Braid.pass n a lm rm m).2.2.1 ∧
      (Braid.pass n a lm rm m).2.1 ≤ rm ∧
      (Braid.pass n a lm rm m).2.2.2 = m + (rm - lm).toNat := by
  unfold Braid.pass
  have hlen : (List.range' (lm + 1).toNat (rm - lm).toNat).reverse.length =
      (rm - lm).toNat := by simp
  have hmem : ∀ j ∈ (List.range' (lm + 1).toNat (rm - lm).toNat).reverse,
      lm + 1 ≤ (j : Int) := by
    intro j hj
    rw [List.mem_reverse, List.mem_range'] at hj
    obtain ⟨i, _, hji⟩ := hj
    have : (lm + 1).toNat ≤ j := by omega
    omega
  have h1 : lm + 1 ≤ (a, rm, rm, m).2.2.1 := by dsimp; omega
  have h2 : (a, rm, rm, m).2.1 ≤ rm := le_refl _
  obtain ⟨a1, a2, a3⟩ := passStep_fold_bounds n _ (a, rm, rm, m) (lm + 1) rm
    hmem h1 h2
  exact ⟨a1, a2, by rw [a3, hlen]⟩

/-- Fuel sufficiency for the sweep: any two fuels at least the window
measure `(rm - lm).toNat` produce the same result, so the `while` loop's
fixed point is reached after at most that many passes. -/
theorem sweep_fuel_sufficient (n : Nat) : ∀ (mu f₁ f₂ : Nat)
    (a : List Permutation) (lm rm : Int) (m : Nat), -1 ≤ lm →
    (rm - lm).toNat ≤ mu → mu ≤ f₁ → mu ≤ f₂ →
    Braid.sweep n f₁ a lm rm m = Braid.sweep n f₂ a lm rm m := by
  intro mu
  induction mu with
  | zero =>
    intro f₁ f₂ a lm rm m hlm hmu h₁ h₂
    have hnr : ¬ lm < rm := by omega
    cases f₁ <;> cases f₂ <;> simp [Braid.sweep, hnr]
  | succ mu ih =>
    intro f₁ f₂ a lm rm m hlm hmu h₁ h₂
    by_cases hr : lm < rm
    · obtain ⟨g₁, rfl⟩ : ∃ g, f₁ = g + 1 := ⟨f₁ - 1, by omega⟩
      obtain ⟨g₂, rfl⟩ : ∃ g, f₂ = g + 1 := ⟨f₂ - 1, by omega⟩
      simp only [Braid.sweep, if_pos hr]
      obtain ⟨b1, b2, _⟩ := pass_bounds n a lm rm m hlm hr
      have hmeas : ((Braid.pass n a lm rm m).2.1 -
          (Braid.pass n a lm rm m).2.2.1).toNat ≤ mu := by omega
      have hlm' : -1 ≤ (Braid.pass n a lm rm m).2.2.1 := by omega
      exact ih g₁ g₂ _ _ _ _ hlm' hmeas (by omega) (by omega)
    · cases f₁ <;> cases f₂ <;> simp [Braid.sweep, hr]

/-- Meet-count bound for the sweep: however much fuel is supplied, at most
`(rm - lm)²` meet evaluations are added to the running counter. -/
theorem sweep_meets_bound (n : Nat) : ∀ (fuel : Nat) (a : List Permutation)
    (lm rm : Int) (m : Nat), -1 ≤ lm →
    (Braid.sweep n fuel a lm rm m).2.2 ≤
      m + (rm - lm).toNat * (rm - lm).toNat := by
  intro fuel
  induction fuel with
  | zero => intro a lm rm m _; simp [Braid.sweep]
  | succ fuel ih =>
    intro a lm rm m hlm
    by_cases hr : lm < rm
    · simp only [Braid.sweep, if_pos hr]
      obtain ⟨b1, b2, b3⟩ := pass_bounds n a lm rm m hlm hr
      have hlm' : -1 ≤ (Braid.pass n a lm rm m).2.2.1 := by omega
      have hrec := ih (Braid.pass n a lm rm m).1 (Braid.pass n a lm rm m).2.2.1
        (Braid.pass n a lm rm m).2.1 (Braid.pass n a lm rm m).2.2.2 hlm'
      have hnu : ((Braid.pass n a lm rm m).2.1 -
          (Braid.pass n a lm rm m).2.2.1).toNat ≤ (rm - lm).toNat - 1 := by omega
      have hsq := Nat.mul_le_mul hnu hnu
      have hfinal : ((rm - lm).toNat - 1) * ((rm - lm).toNat - 1) +
          (rm - lm).toNat ≤ (rm - lm).toNat * (rm - lm).toNat := by
        obtain ⟨kk, hkk⟩ : ∃ kk, (rm - lm).toNat = kk + 1 :=
          ⟨(rm - lm).toNat - 1, by omega⟩
        rw [hkk]
        have hexp : (kk + 1) * (kk + 1) = kk * kk + 2 * kk + 1 := by ring
        simp only [Nat.add_sub_cancel]
        omega
      omega
    · simp [Braid.sweep, hr]

end SweepTermination

section ClaimsTermination

open MathBraid.Permutation MathBraid.CanonicalFactor MathBraid.Braid

/-- C9: the local-normalization sweep on the `l` raw factors of a word
reaches the pass with no leftward transfer within its fuel `l` (any larger
fuel gives the identical result, i.e. the `while` loop has genuinely exited),
and it performs at most `l²` meet evaluations. -/
theorem C9_sweep_terminates (n : Nat) (a : List Permutation) (fuel : Nat)
    (h : a.length ≤ fuel) :
    Braid.sweep n fuel a (-1) ((a.length : Int) - 2) 0 =
        Braid.sweep n a.length a (-1) ((a.length : Int) - 2) 0 ∧
      (Braid.sweep n fuel a (-1) ((a.length : Int) - 2) 0).2.2 ≤
        a.length * a.length := by
  have hlm : (-1 : Int) ≤ -1 := le_refl _
  have hmu : (((a.length : Int) - 2) - (-1)).toNat ≤ a.length := by omega
  constructor
  · exact sweep_fuel_sufficient n a.length fuel a.length a (-1) _ 0 hlm hmu h
      (le_refl _)
  · have := sweep_meets_bound n fuel a (-1) ((a.length : Int) - 2) 0 hlm
    have hsq : (((a.length : Int) - 2) - (-1)).toNat *
        (((a.length : Int) - 2) - (-1)).toNat ≤ a.length * a.length :=
      Nat.mul_le_mul hmu hmu
    omega

/-- Witness for C9 at the raw factors of the word `[1, 2, -1, 2]` in `B₅`
with surplus fuel. -/
theorem C9_sweep_terminates_witness :
    Braid.sweep 5 9 [⟨[1, 0, 2, 3, 4]⟩, ⟨[0, 2, 1, 3, 4]⟩,
          ⟨[4, 0, 2, 1, 3]⟩, ⟨[4, 0, 1, 3, 2]⟩] (-1) (2 : Int) 0 =
        Braid.sweep 5 4 [⟨[1, 0, 2, 3, 4]⟩, ⟨[0, 2, 1, 3, 4]⟩,
          ⟨[4, 0, 2, 1, 3]⟩, ⟨[4, 0, 1, 3, 2]⟩] (-1) (2 : Int) 0 ∧
      (Braid.sweep 5 9 [⟨[1, 0, 2, 3, 4]⟩, ⟨[0, 2, 1, 3, 4]⟩,
          ⟨[4, 0, 2, 1, 3]⟩, ⟨[4, 0, 1, 3, 2]⟩] (-1) (2 : Int) 0).2.2 ≤ 16 :=
  C9_sweep_terminates 5 [⟨[1, 0, 2, 3, 4]⟩, ⟨[0, 2, 1, 3, 4]⟩,
    ⟨[4, 0, 2, 1, 3]⟩, ⟨[4, 0, 1, 3, 2]⟩] 9 (by decide)

end ClaimsTermination

section MeetCharacterization

open MathBraid.Permutation MathBraid.CanonicalFactor

/-- Unfolding of the extended sort key comparison into arithmetic. -/
theorem keyLe_unfold (sc oc : List Nat) (a b : Nat) :
    keyLe sc oc a b = true ↔
      sc.getD a 0 < sc.getD b 0 ∨ (sc.getD a 0 = sc.getD b 0 ∧
        (oc.getD a 0 < oc.getD b 0 ∨ (oc.getD a 0 = oc.getD b 0 ∧ a ≤ b))) := by
  simp [keyLe, Bool.or_eq_true, Bool.and_eq_true, decide_eq_true_eq]

/-- The sort key comparison is total. -/
theorem keyLe_total (sc oc : List Nat) (a b : Nat) :
    keyLe sc oc a b = true ∨ keyLe sc oc b a = true := by
  rw [keyLe_unfold, keyLe_unfold]; omega

/-- The sort key comparison is transitive. -/
theorem keyLe_trans {sc oc : List Nat} {a b c : Nat}
    (h1 : keyLe sc oc a b = true) (h2 : keyLe sc oc b c = true) :
    keyLe sc oc a c = true := by
  rw [keyLe_unfold] at h1 h2 ⊢; omega

/-- An element lexicographically between two indices with equal cycle-value
pairs shares that pair (contiguity of classes in the sorted order). -/
theorem keyLe_squeeze {sc oc : List Nat} {i x j : Nat}
    (h1 : keyLe sc oc i x = true) (h2 : keyLe sc oc x j = true)
    (hp : cyclePair sc oc i = cyclePair sc oc j) :
    cyclePair sc oc x = cyclePair sc oc i := by
  simp only [cyclePair, Prod.mk.injEq] at hp ⊢
  rw [keyLe_unfold] at h1 h2
  omega

/-- With equal cycle-value pairs the key comparison is index comparison. -/
theorem keyLe_of_pair_eq {sc oc : List Nat} {a b : Nat}
    (hp : cyclePair sc oc a = cyclePair sc oc b)
    (h : keyLe sc oc a b = true) : a ≤ b := by
  simp only [cyclePair, Prod.mk.injEq] at hp
  rw [keyLe_unfold] at h
  omega

/-- `getD` after `set` at the written position. -/
theorem getD_set_self {l : List Nat} {i : Nat} {v : Nat} (h : i < l.length) :
    (l.set i v).getD i 0 = v := by
  rw [List.getD_eq_getElem?_getD, List.getElem?_set_self h]
  rfl

/-- `getD` after `set` at a different position. -/
theorem getD_set_other {l : List Nat} {i j : Nat} {v : Nat} (h : i ≠ j) :
    (l.set i v).getD j 0 = l.getD j 0 := by
  rw [List.getD_eq_getElem?_getD, List.getElem?_set_ne h,
    ← List.getD_eq_getElem?_getD]

/-- `getD` on `replicate`. -/
theorem getD_replicate_self {n i : Nat} {v : Nat} (h : i < n) :
    (List.replicate n v).getD i 0 = v := by
  rw [List.getD_eq_getElem?_getD]
  simp [List.getElem?_replicate, h]

/-- A nonempty list of naturals contains its `foldr max 0`. -/
theorem foldr_max_mem : ∀ (l : List Nat), l ≠ [] → l.foldr max 0 ∈ l := by
  intro l hl
  induction l with
  | nil => exact absurd rfl hl
  | cons a t ih =>
    match t, ih with
    | [], _ => simp
    | b :: t', ih =>
      rcases Nat.le_total a ((b :: t').foldr max 0) with h | h
      · rw [List.foldr_cons, max_eq_right h]
        exact List.mem_cons_of_mem _ (ih (by simp))
      · rw [List.foldr_cons, max_eq_left h]
        exact List.mem_cons_self ..

/-- Every element of a list of naturals is at most its `foldr max 0`. -/
theorem le_foldr_max : ∀ (l : List Nat) (x : Nat), x ∈ l → x ≤ l.foldr max 0 := by
  intro l
  induction l with
  | nil => intro x hx; cases hx
  | cons a t ih =>
    intro x hx
    rcases List.mem_cons.mp hx with rfl | hx
    · exact Nat.le_max_left ..
    · exact le_trans (ih x hx) (Nat.le_max_right ..)

/-- `firstSame` on a cons whose head shares `i`'s pair. -/
theorem firstSame_cons_pos {sc oc : List Nat} {h i : Nat} (t : List Nat)
    (hp : cyclePair sc oc h = cyclePair sc oc i) :
    firstSame sc oc (h :: t) i = h := by
  simp [firstSame, List.filter_cons, hp]

/-- `firstSame` on a cons whose head differs from `i`'s pair. -/
theorem firstSame_cons_neg {sc oc : List Nat} {h i : Nat} (t : List Nat)
    (hp : cyclePair sc oc h ≠ cyclePair sc oc i) :
    firstSame sc oc (h :: t) i = firstSame sc oc t i := by
  simp [firstSame, List.filter_cons, hp]

/-- Step unfolding of the grouping scan in terms of `cyclePair`. -/
theorem groupScan_cons (sc oc : List Nat) (j : Nat) (dc : List Nat)
    (x : Nat) (xs : List Nat) :
    groupScan sc oc j dc (x :: xs) =
      groupScan sc oc
        (if cyclePair sc oc j = cyclePair sc oc x then j else x)
        (dc.set x (if cyclePair sc oc j = cyclePair sc oc x then j else x))
        xs := by
  by_cases h1 : sc[j]?.getD 0 = sc[x]?.getD 0 <;>
    by_cases h2 : oc[j]?.getD 0 = oc[x]?.getD 0 <;>
    simp [groupScan, cyclePair, Prod.mk.injEq, List.getD_eq_getElem?_getD,
      h1, h2]

/-- Characterization of the grouping scan on a strictly key-descending list
(with leader `j` at its head): every scanned index receives as label the
first element of the full list carrying its cycle-value pair, unscanned
entries keep their previous label, and the length is preserved. -/
theorem groupScan_spec (sc oc : List Nat) :
    ∀ (L : List Nat) (j : Nat) (dc : List Nat),
    List.Pairwise (fun a b => keyLe sc oc b a = true ∧ a ≠ b) (j :: L) →
    (∀ i ∈ j :: L, i < dc.length) →
    ((∀ i ∈ L, (groupScan sc oc j dc L).getD i 0 =
        firstSame sc oc (j :: L) i) ∧
      (∀ i, i ∉ L → (groupScan sc oc j dc L).getD i 0 = dc.getD i 0) ∧
      (groupScan sc oc j dc L).length = dc.length) := by
  intro L
  induction L with
  | nil =>
    intro j dc _ _
    exact ⟨fun i hi => absurd hi (List.not_mem_nil i), fun i _ => rfl, rfl⟩
  | cons x xs ih =>
    intro j dc hpw hbound
    have hpwtail : List.Pairwise
        (fun a b => keyLe sc oc b a = true ∧ a ≠ b) (x :: xs) :=
      (List.pairwise_cons.mp hpw).2
    have hjx : keyLe sc oc x j = true ∧ j ≠ x :=
      (List.pairwise_cons.mp hpw).1 x (List.mem_cons_self ..)
    have hjxs : ∀ y ∈ xs, keyLe sc oc y j = true ∧ j ≠ y := fun y hy =>
      (List.pairwise_cons.mp hpw).1 y (List.mem_cons_of_mem _ hy)
    have hxxs : ∀ y ∈ xs, keyLe sc oc y x = true ∧ x ≠ y := fun y hy =>
      (List.pairwise_cons.mp hpwtail).1 y hy
    have hxnotxs : x ∉ xs := fun hx => (hxxs x hx).2 rfl
    have hxmem : x < dc.length := hbound x (by simp)
    rw [groupScan_cons]
    by_cases hpjx : cyclePair sc oc j = cyclePair sc oc x
    · simp only [if_pos hpjx]
      have hpw' : List.Pairwise
          (fun a b => keyLe sc oc b a = true ∧ a ≠ b) (j :: xs) :=
        List.pairwise_cons.mpr ⟨hjxs, (List.pairwise_cons.mp hpwtail).2⟩
      have hbound' : ∀ i ∈ j :: xs, i < (dc.set x j).length := by
        intro i hi
        rw [List.length_set]
        rcases List.mem_cons.mp hi with rfl | hi
        · exact hbound i (List.mem_cons_self ..)
        · exact hbound i (List.mem_cons_of_mem _ (List.mem_cons_of_mem _ hi))
      obtain ⟨ha, hb, hc⟩ := ih j (dc.set x j) hpw' hbound'
      refine ⟨?_, ?_, ?_⟩
      · intro i hi
        rcases List.mem_cons.mp hi with rfl | hi
        · rw [hb i hxnotxs, getD_set_self hxmem, firstSame_cons_pos _ hpjx]
        · rw [ha i hi]
          by_cases hpji : cyclePair sc oc j = cyclePair sc oc i
          · rw [firstSame_cons_pos xs hpji, firstSame_cons_pos (x :: xs) hpji]
          · have hpxi : cyclePair sc oc x ≠ cyclePair sc oc i := by
              intro h; exact hpji (hpjx.trans h)
            rw [firstSame_cons_neg xs hpji, firstSame_cons_neg (x :: xs) hpji,
              firstSame_cons_neg xs hpxi]
      · intro i hi
        have hix : i ≠ x := fun h => hi (h ▸ List.mem_cons_self ..)
        have hixs : i ∉ xs := fun h => hi (List.mem_cons_of_mem _ h)
        rw [hb i hixs, getD_set_other (fun h => hix h.symm)]
      · rw [hc, List.length_set]
    · simp only [if_neg hpjx]
      have hbound' : ∀ i ∈ x :: xs, i < (dc.set x x).length := by
        intro i hi
        rw [List.length_set]
        exact hbound i (List.mem_cons_of_mem _ hi)
      obtain ⟨ha, hb, hc⟩ := ih x (dc.set x x) hpwtail hbound'
      refine ⟨?_, ?_, ?_⟩
      · intro i hi
        rcases List.mem_cons.mp hi with rfl | hi
        · rw [hb i hxnotxs, getD_set_self hxmem,
            firstSame_cons_neg (i :: xs) hpjx, firstSame_cons_pos xs rfl]
        · rw [ha i hi]
          have hpji : cyclePair sc oc j ≠ cyclePair sc oc i := by
            intro hji
            have hsq := keyLe_squeeze (hxxs i hi).1 hjx.1 hji.symm
            exact hpjx (hji.trans hsq.symm)
          rw [firstSame_cons_neg (x :: xs) hpji]
      · intro i hi
        have hix : i ≠ x := fun h => hi (h ▸ List.mem_cons_self ..)
        have hixs : i ∉ xs := fun h => hi (List.mem_cons_of_mem _ h)
        rw [hb i hixs, getD_set_other (fun h => hix h.symm)]
      · rw [hc, List.length_set]

/-- The reversed sorted order used by `meet` is a permutation of `range n`,
strictly descending in the extended key. -/
theorem order_facts (sc oc : List Nat) (n : Nat) :
    ((sortLe (keyLe sc oc) (List.range n)).reverse).Perm (List.range n) ∧
      List.Pairwise (fun a b => keyLe sc oc b a = true ∧ a ≠ b)
        ((sortLe (keyLe sc oc) (List.range n)).reverse) := by
  have hperm : (sortLe (keyLe sc oc) (List.range n)).Perm (List.range n) :=
    List.perm_insertionSort _ _
  have hpermrev :
      ((sortLe (keyLe sc oc) (List.range n)).reverse).Perm (List.range n) :=
    (List.reverse_perm _).trans hperm
  refine ⟨hpermrev, ?_⟩
  haveI : IsTotal Nat (fun a b => keyLe sc oc a b = true) := ⟨keyLe_total sc oc⟩
  haveI : IsTrans Nat (fun a b => keyLe sc oc a b = true) :=
    ⟨fun _ _ _ => keyLe_trans⟩
  have hsorted : List.Pairwise (fun a b => keyLe sc oc a b = true)
      (sortLe (keyLe sc oc) (List.range n)) :=
    List.sorted_insertionSort _ _
  have hdesc : List.Pairwise (fun a b => keyLe sc oc b a = true)
      ((sortLe (keyLe sc oc) (List.range n)).reverse) :=
    List.pairwise_reverse.mpr hsorted
  have hnodup : ((sortLe (keyLe sc oc) (List.range n)).reverse).Nodup :=
    hpermrev.symm.nodup (List.nodup_range n)
  exact hdesc.and hnodup

/-- On a strictly key-descending permutation of `range n`, the first element
carrying a given index's cycle-value pair is the largest index with that
pair. -/
theorem firstSame_eq_classMax (sc oc : List Nat) (n : Nat) (ord : List Nat)
    (hperm : ord.Perm (List.range n))
    (hpw : List.Pairwise (fun a b => keyLe sc oc b a = true ∧ a ≠ b) ord)
    (i : Nat) (hi : i ∈ ord) :
    firstSame sc oc ord i = classMax sc oc n i := by
  have hifilter : i ∈ ord.filter
      (fun j => decide (cyclePair sc oc j = cyclePair sc oc i)) :=
    List.mem_filter.mpr ⟨hi, by simp⟩
  obtain ⟨F, t, hFt⟩ : ∃ F t, ord.filter
      (fun j => decide (cyclePair sc oc j = cyclePair sc oc i)) = F :: t := by
    cases hft : ord.filter
        (fun j => decide (cyclePair sc oc j = cyclePair sc oc i)) with
    | nil => rw [hft] at hifilter; cases hifilter
    | cons F t => exact ⟨F, t, rfl⟩
  have hFS : firstSame sc oc ord i = F := by
    rw [firstSame, hFt]; rfl
  have hFfil : F ∈ ord.filter
      (fun j => decide (cyclePair sc oc j = cyclePair sc oc i)) := by
    rw [hFt]; exact List.mem_cons_self ..
  have hFord : F ∈ ord := (List.mem_filter.mp hFfil).1
  have hFP : cyclePair sc oc F = cyclePair sc oc i := by
    have := (List.mem_filter.mp hFfil).2
    simpa using this
  have hin : i ∈ List.range n := hperm.mem_iff.mp hi
  have hiltn : i < n := List.mem_range.mp hin
  have hiCl : i ∈ (List.range n).filter
      (fun j => decide (cyclePair sc oc j = cyclePair sc oc i)) :=
    List.mem_filter.mpr ⟨hin, by simp⟩
  have hClne : (List.range n).filter
      (fun j => decide (cyclePair sc oc j = cyclePair sc oc i)) ≠ [] := by
    intro h; rw [h] at hiCl; cases hiCl
  have hmCl : classMax sc oc n i ∈ (List.range n).filter
      (fun j => decide (cyclePair sc oc j = cyclePair sc oc i)) :=
    foldr_max_mem _ hClne
  have hmP : cyclePair sc oc (classMax sc oc n i) = cyclePair sc oc i := by
    have := (List.mem_filter.mp hmCl).2
    simpa using this
  have hmn : classMax sc oc n i < n :=
    List.mem_range.mp (List.mem_filter.mp hmCl).1
  have hFn : F < n := List.mem_range.mp (hperm.mem_iff.mp hFord)
  have hFle : F ≤ classMax sc oc n i := by
    refine le_foldr_max _ _ (List.mem_filter.mpr ⟨List.mem_range.mpr hFn, ?_⟩)
    simp [hFP]
  have hmord : classMax sc oc n i ∈ ord :=
    hperm.mem_iff.mpr (List.mem_range.mpr hmn)
  have hmfil : classMax sc oc n i ∈ ord.filter
      (fun j => decide (cyclePair sc oc j = cyclePair sc oc i)) :=
    List.mem_filter.mpr ⟨hmord, by simp [hmP]⟩
  have hpwfil : List.Pairwise (fun a b => keyLe sc oc b a = true ∧ a ≠ b)
      (F :: t) := hFt ▸ (List.Pairwise.sublist (List.filter_sublist _) hpw)
  have hmle : classMax sc oc n i ≤ F := by
    rw [hFt] at hmfil
    rcases List.mem_cons.mp hmfil with h | h
    · exact le_of_eq h
    · have hk := (List.pairwise_cons.mp hpwfil).1 _ h
      exact keyLe_of_pair_eq (hmP.trans hFP.symm) hk.1
  rw [hFS]
  exact Nat.le_antisymm hFle hmle

/-- `getD` on `meetLabels`. -/
theorem meetLabels_getD (sc oc : List Nat) (n i : Nat) (h : i < n) :
    (meetLabels sc oc n).getD i 0 = classMax sc oc n i := by
  have hlen : i < (meetLabels sc oc n).length := by
    simp [meetLabels, h]
  rw [List.getD_eq_getElem _ _ hlen]
  simp [meetLabels]

/-- `meetCore` rebuilds the permutation from the class-leader labelling:
the computed grouped cycle array is exactly `meetLabels`. -/
theorem meetCore_eq_labels (x y : Permutation) (n : Nat)
    (hx : x.size = n) (hy : y.size = n) (hn : n ≠ 0) :
    meetCore x y =
      createFromDcycle (meetLabels (dCycles x) (dCycles y) n) := by
  obtain ⟨hordperm, hordpw⟩ := order_facts (dCycles x) (dCycles y) n
  unfold meetCore
  rw [hx]
  have hlen : ((sortLe (keyLe (dCycles x) (dCycles y))
      (List.range n)).reverse).length = n :=
    hordperm.length_eq.trans (List.length_range n)
  obtain ⟨j0, rest, hsplit⟩ : ∃ j0 rest,
      (sortLe (keyLe (dCycles x) (dCycles y)) (List.range n)).reverse =
        j0 :: rest := by
    cases hc : (sortLe (keyLe (dCycles x) (dCycles y))
        (List.range n)).reverse with
    | nil => rw [hc] at hlen; simp at hlen; omega
    | cons a b => exact ⟨a, b, rfl⟩
  dsimp only
  rw [hsplit]
  rw [hsplit] at hordperm hordpw
  show createFromDcycle (groupScan (dCycles x) (dCycles y) j0
      (List.replicate n j0) rest) =
    createFromDcycle (meetLabels (dCycles x) (dCycles y) n)
  have hbound : ∀ i ∈ j0 :: rest, i < (List.replicate n j0).length := by
    intro i hi
    rw [List.length_replicate]
    exact List.mem_range.mp (hordperm.mem_iff.mp hi)
  obtain ⟨ha, hb, hc⟩ :=
    groupScan_spec (dCycles x) (dCycles y) rest j0 (List.replicate n j0)
      hordpw hbound
  have hj0rest : j0 ∉ rest := by
    intro h
    exact ((List.pairwise_cons.mp hordpw).1 j0 h).2 rfl
  have hj0n : j0 < n :=
    List.mem_range.mp (hordperm.mem_iff.mp (List.mem_cons_self ..))
  congr 1
  have hlenR : (groupScan (dCycles x) (dCycles y) j0
      (List.replicate n j0) rest).length = n := by
    rw [hc, List.length_replicate]
  have hlenL : (meetLabels (dCycles x) (dCycles y) n).length = n := by
    simp [meetLabels]
  refine List.ext_getElem (hlenR.trans hlenL.symm) ?_
  intro i h₁ h₂
  have hiltn : i < n := hlenR ▸ h₁
  rw [← List.getD_eq_getElem _ 0, ← List.getD_eq_getElem _ 0,
    meetLabels_getD _ _ _ _ hiltn]
  have hiord : i ∈ j0 :: rest :=
    hordperm.mem_iff.mpr (List.mem_range.mpr hiltn)
  rcases List.mem_cons.mp hiord with rfl | hirest
  · rw [hb i hj0rest, getD_replicate_self hiltn]
    have := firstSame_eq_classMax (dCycles x) (dCycles y) n (i :: rest)
      hordperm hordpw i (List.mem_cons_self ..)
    rw [← this, firstSame_cons_pos rest rfl]
  · rw [ha i hirest]
    exact firstSame_eq_classMax (dCycles x) (dCycles y) n (j0 :: rest)
      hordperm hordpw i hiord

/-- Upper bound for `foldr max 0`. -/
theorem foldr_max_le : ∀ (l : List Nat) (B : Nat), (∀ x ∈ l, x ≤ B) →
    l.foldr max 0 ≤ B := by
  intro l
  induction l with
  | nil => intro B _; exact Nat.zero_le B
  | cons a t ih =>
    intro B h
    rw [List.foldr_cons]
    exact max_le (h a (List.mem_cons_self ..))
      (ih B (fun x hx => h x (List.mem_cons_of_mem _ hx)))

/-- `getD` on `range`. -/
theorem getD_range {n i : Nat} (h : i < n) : (List.range n).getD i 0 = i := by
  rw [List.getD_eq_getElem _ _ (by simpa using h)]
  exact List.getElem_range ..

/-- The `d_cycles` fold over the reversed range is the descending scan. -/
theorem dScan_fold (arr : List Nat) : ∀ (m : Nat) (c : List Nat),
    (List.range m).reverse.foldl
      (fun c i =>
        if arr.getD i 0 < i then c.set (arr.getD i 0) (c.getD i 0) else c) c =
      dScan arr m c := by
  intro m
  induction m with
  | zero => intro c; rfl
  | succ m ih =>
    intro c
    rw [List.range_succ, List.reverse_append]
    simp only [List.reverse_cons, List.reverse_nil, List.nil_append,
      List.singleton_append, List.foldl_cons]
    rw [ih]
    rfl

/-- `dCycles` in descending-scan form. -/
theorem dCycles_eq_dScan (x : Permutation) :
    dCycles x = dScan x.array_form x.size (List.range x.size) :=
  dScan_fold x.array_form x.size (List.range x.size)

/-- The descending scan preserves the table length. -/
theorem dScan_length (arr : List Nat) : ∀ (m : Nat) (c : List Nat),
    (dScan arr m c).length = c.length := by
  intro m
  induction m with
  | zero => intro c; rfl
  | succ m ih =>
    intro c
    show (dScan arr m _).length = _
    rw [ih]
    split <;> simp

/-- Entries at or above the processing bound are untouched. -/
theorem dScan_stable (arr : List Nat) : ∀ (m : Nat) (c : List Nat) (v : Nat),
    m ≤ v → (dScan arr m c).getD v 0 = c.getD v 0 := by
  intro m
  induction m with
  | zero => intro c v _; rfl
  | succ m ih =>
    intro c v hv
    show (dScan arr m _).getD v 0 = _
    rw [ih _ _ (by omega)]
    split
    · exact getD_set_other (by omega)
    · rfl

/-- Entries with no writer among the processed indices are untouched. -/
theorem dScan_nowrite (arr : List Nat) : ∀ (m : Nat) (c : List Nat) (v : Nat),
    (∀ j, j < m → ¬(arr.getD j 0 = v ∧ arr.getD j 0 < j)) →
    (dScan arr m c).getD v 0 = c.getD v 0 := by
  intro m
  induction m with
  | zero => intro c v _; rfl
  | succ m ih =>
    intro c v h
    show (dScan arr m _).getD v 0 = _
    rw [ih _ _ (fun j hj => h j (by omega))]
    split
    · have := h m (by omega)
      exact getD_set_other (fun he => this ⟨he, by omega⟩)
    · rfl

/-- An entry with a unique writer receives the writer's (final) value:
after the scan, the entry and its writer's entry agree. -/
theorem dScan_writer (arr : List Nat) : ∀ (m : Nat) (c : List Nat)
    (v w : Nat), w < m → arr.getD w 0 = v → v < w →
    (∀ j, j < m → j ≠ w → ¬(arr.getD j 0 = v ∧ arr.getD j 0 < j)) →
    v < c.length →
    (dScan arr m c).getD v 0 = (dScan arr m c).getD w 0 := by
  intro m
  induction m with
  | zero => intro c v w hw; omega
  | succ m ih =>
    intro c v w hwm harr hvw huniq hvlen
    show (dScan arr m
      (if arr.getD m 0 < m then c.set (arr.getD m 0) (c.getD m 0) else c)).getD
        v 0 =
      (dScan arr m
        (if arr.getD m 0 < m then
          c.set (arr.getD m 0) (c.getD m 0) else c)).getD w 0
    by_cases hw : w = m
    · subst hw
      rw [if_pos (show arr.getD w 0 < w by omega)]
      rw [harr]
      have hL : (dScan arr w (c.set v (c.getD w 0))).getD v 0 =
          (c.set v (c.getD w 0)).getD v 0 := by
        apply dScan_nowrite
        intro j hj
        exact huniq j (by omega) (by omega)
      have hR : (dScan arr w (c.set v (c.getD w 0))).getD w 0 =
          (c.set v (c.getD w 0)).getD w 0 :=
        dScan_stable arr w _ w (le_refl w)
      rw [hL, hR, getD_set_self hvlen, getD_set_other (by omega)]
    · have hwm' : w < m := by omega
      apply ih
      · exact hwm'
      · exact harr
      · exact hvw
      · intro j hj hjw
        exact huniq j (by omega) hjw
      · split <;> simp [hvlen]

/-- Final laws of the descending-cycle array for an injective table:
every entry dominates its index, is below `n`, and is a fixed point of the
array (`cycles[cycles[v]] = cycles[v]`). -/
theorem dScan_range_final (arr : List Nat) (n : Nat)
    (hinj : ∀ j1 j2, j1 < n → j2 < n →
      arr.getD j1 0 = arr.getD j2 0 → j1 = j2) :
    ∀ v, v < n →
      v ≤ (dScan arr n (List.range n)).getD v 0 ∧
      (dScan arr n (List.range n)).getD v 0 < n ∧
      (dScan arr n (List.range n)).getD
        ((dScan arr n (List.range n)).getD v 0) 0 =
        (dScan arr n (List.range n)).getD v 0 := by
  have main : ∀ (d : Nat) (v : Nat), v < n → n - v ≤ d →
      v ≤ (dScan arr n (List.range n)).getD v 0 ∧
      (dScan arr n (List.range n)).getD v 0 < n ∧
      (dScan arr n (List.range n)).getD
        ((dScan arr n (List.range n)).getD v 0) 0 =
        (dScan arr n (List.range n)).getD v 0 := by
    intro d
    induction d with
    | zero => intro v hv hd; omega
    | succ d ih =>
      intro v hv hd
      by_cases hex : ∃ w, w < n ∧ arr.getD w 0 = v ∧ v < w
      · obtain ⟨w, hwn, harr, hvw⟩ := hex
        have huniq : ∀ j, j < n → j ≠ w →
            ¬(arr.getD j 0 = v ∧ arr.getD j 0 < j) := by
          intro j hj hjw ⟨h1, h2⟩
          exact hjw (hinj j w hj hwn (h1.trans harr.symm))
        have heq : (dScan arr n (List.range n)).getD v 0 =
            (dScan arr n (List.range n)).getD w 0 :=
          dScan_writer arr n _ v w hwn harr hvw huniq (by simpa using hv)
        obtain ⟨w1, w2, w3⟩ := ih w hwn (by omega)
        exact ⟨by omega, by omega, by rw [heq, w3]⟩
      · have hnw : ∀ j, j < n → ¬(arr.getD j 0 = v ∧ arr.getD j 0 < j) := by
          intro j hj ⟨h1, h2⟩
          exact hex ⟨j, hj, h1, by omega⟩
        have heq : (dScan arr n (List.range n)).getD v 0 = v := by
          rw [dScan_nowrite arr n _ v hnw, getD_range hv]
        rw [heq]
        exact ⟨le_refl v, hv, by rw [heq]⟩
  exact fun v hv => main (n - v) v hv (le_refl _)

/-- The diagonal class maximum collapses to the cycle value itself when both
cycle arrays agree and satisfy the descending-cycle laws. -/
theorem classMax_diag (c : List Nat) (n i : Nat) (hi : i < n)
    (hge : ∀ v, v < n → v ≤ c.getD v 0)
    (hlt : ∀ v, v < n → c.getD v 0 < n)
    (hidem : ∀ v, v < n → c.getD (c.getD v 0) 0 = c.getD v 0) :
    classMax c c n i = c.getD i 0 := by
  apply Nat.le_antisymm
  · apply foldr_max_le
    intro x hx
    obtain ⟨hxr, hxp⟩ := List.mem_filter.mp hx
    have hxn : x < n := List.mem_range.mp hxr
    have hpair : c.getD x 0 = c.getD i 0 := by
      have := of_decide_eq_true hxp
      simpa [cyclePair, Prod.mk.injEq] using this
    calc x ≤ c.getD x 0 := hge x hxn
    _ = c.getD i 0 := hpair
  · apply le_foldr_max
    refine List.mem_filter.mpr ⟨List.mem_range.mpr (hlt i hi), ?_⟩
    apply decide_eq_true
    simp only [cyclePair, Prod.mk.injEq]
    exact ⟨hidem i hi, hidem i hi⟩

/-- Injectivity of a genuine permutation table below its length. -/
theorem isPermTable_inj (x : Permutation) (h : isPermTable x) :
    ∀ j1 j2, j1 < x.size → j2 < x.size →
      x.array_form.getD j1 0 = x.array_form.getD j2 0 → j1 = j2 := by
  intro j1 j2 h1 h2 heq
  have hnodup : x.array_form.Nodup :=
    (List.Perm.nodup h.symm) (List.nodup_range _)
  have h1' : j1 < x.array_form.length := h1
  have h2' : j2 < x.array_form.length := h2
  rw [List.getD_eq_getElem _ _ h1', List.getD_eq_getElem _ _ h2'] at heq
  exact (hnodup.getElem_inj_iff).mp heq

/-- Symmetry of the class-leader labelling in the two cycle arrays. -/
theorem meetLabels_symm (sc oc : List Nat) (n : Nat) :
    meetLabels sc oc n = meetLabels oc sc n := by
  unfold meetLabels
  apply List.map_congr_left
  intro i _
  unfold classMax
  congr 1
  apply List.filter_congr
  intro j _
  apply decide_eq_decide.mpr
  simp only [cyclePair, Prod.mk.injEq]
  exact and_comm

/-- `meet` is commutative on every pair of operands (identity shortcut,
width mismatch and core all symmetric). -/
theorem meet_comm_all (x y : Permutation) :
    CanonicalFactor.meet x y = CanonicalFactor.meet y x := by
  unfold CanonicalFactor.meet
  by_cases h0 : x.size = 0 ∨ y.size = 0
  · rw [if_pos h0, if_pos (Or.symm h0)]
  · have hx0 : ¬ x.size = 0 := fun h => h0 (Or.inl h)
    have h0' : ¬ (y.size = 0 ∨ x.size = 0) := fun h => h0 (Or.symm h)
    rw [if_neg h0, if_neg h0']
    by_cases hxy : x.size = y.size
    · rw [if_neg (show ¬ x.size ≠ y.size by omega),
        if_neg (show ¬ y.size ≠ x.size by omega)]
      rw [meetCore_eq_labels x y x.size rfl hxy.symm hx0,
        meetCore_eq_labels y x x.size hxy.symm rfl hx0,
        meetLabels_symm]
    · rw [if_pos (show x.size ≠ y.size from hxy),
        if_pos (show y.size ≠ x.size from fun h => hxy h.symm)]

/-- `meet(A, A) = A` for a valid canonical factor. -/
theorem meet_self (x : Permutation) (hperm : isPermTable x)
    (hcanon : isCanonical x) : CanonicalFactor.meet x x = some x := by
  unfold CanonicalFactor.meet
  by_cases h0 : x.size = 0
  · rw [if_pos (Or.inl h0)]
    obtain ⟨l⟩ := x
    unfold Permutation.size at h0
    simp only [List.length_eq_zero] at h0
    subst h0
    rfl
  · rw [if_neg (by tauto), if_neg (by omega)]
    rw [meetCore_eq_labels x x x.size rfl rfl h0]
    have hfinal := dScan_range_final x.array_form x.size (isPermTable_inj x hperm)
    have hge : ∀ v, v < x.size → v ≤ (dCycles x).getD v 0 := by
      intro v hv; rw [dCycles_eq_dScan]; exact (hfinal v hv).1
    have hlt : ∀ v, v < x.size → (dCycles x).getD v 0 < x.size := by
      intro v hv; rw [dCycles_eq_dScan]; exact (hfinal v hv).2.1
    have hidem : ∀ v, v < x.size →
        (dCycles x).getD ((dCycles x).getD v 0) 0 = (dCycles x).getD v 0 := by
      intro v hv; rw [dCycles_eq_dScan]; exact (hfinal v hv).2.2
    have hlabels : meetLabels (dCycles x) (dCycles x) x.size = dCycles x := by
      have hlenc : (dCycles x).length = x.size := by
        rw [dCycles_eq_dScan, dScan_length]
        exact List.length_range _
      refine List.ext_getElem (by simp [meetLabels, hlenc]) ?_
      intro i h₁ h₂
      have hin : i < x.size := by simpa [meetLabels] using h₁
      rw [← List.getD_eq_getElem _ 0, ← List.getD_eq_getElem _ 0,
        meetLabels_getD _ _ _ _ hin]
      exact classMax_diag (dCycles x) x.size i hin hge hlt hidem
    rw [hlabels]
    rw [hcanon]

end MeetCharacterization

section ClaimsMeet

open MathBraid.Permutation MathBraid.CanonicalFactor

/-- C4: for canonical factors `A`, `B` of the same width `n` (valid
permutation tables that are unions of descending cycles), the meet is
idempotent (`meet(A,A) = A`), absorbed by the identity
(`meet(A, identity) = identity`, the identity being the size-0 wildcard
`CanonicalFactor()`), and commutative (`meet(A,B) = meet(B,A)`). -/
theorem C4_meet_props (A B : Permutation) (n : Nat)
    (hA : A.size = n) (hB : B.size = n)
    (hPA : isPermTable A) (hCA : isCanonical A)
    (hPB : isPermTable B) (hCB : isCanonical B) :
    CanonicalFactor.meet A A = some A ∧
      CanonicalFactor.meet A Permutation.one = some Permutation.one ∧
      CanonicalFactor.meet A B = CanonicalFactor.meet B A := by
  refine ⟨meet_self A hPA hCA, ?_, meet_comm_all A B⟩
  unfold CanonicalFactor.meet
  rw [if_pos (show A.size = 0 ∨ Permutation.one.size = 0 from Or.inr rfl)]

/-- Witness for C4 at the doctest factors of width 7. -/
theorem C4_meet_props_witness :
    CanonicalFactor.meet ⟨[0, 4, 2, 3, 1, 6, 5]⟩ ⟨[0, 4, 2, 3, 1, 6, 5]⟩ =
        some ⟨[0, 4, 2, 3, 1, 6, 5]⟩ ∧
      CanonicalFactor.meet ⟨[0, 4, 2, 3, 1, 6, 5]⟩ Permutation.one =
        some Permutation.one ∧
      CanonicalFactor.meet ⟨[0, 4, 2, 3, 1, 6, 5]⟩ ⟨[0, 4, 3, 2, 1, 5, 6]⟩ =
        CanonicalFactor.meet ⟨[0, 4, 3, 2, 1, 5, 6]⟩ ⟨[0, 4, 2, 3, 1, 6, 5]⟩ :=
  C4_meet_props ⟨[0, 4, 2, 3, 1, 6, 5]⟩ ⟨[0, 4, 3, 2, 1, 5, 6]⟩ 7
    rfl rfl (by decide) (by decide) (by decide) (by decide)

end ClaimsMeet

section TauMeet

open MathBraid.Permutation MathBraid.CanonicalFactor

/-- Generic `getD` after `set` at the written position. -/
theorem getD_set_self' {α : Type} {l : List α} {i : Nat} {v d : α}
    (h : i < l.length) : (l.set i v).getD i d = v := by
  rw [List.getD_eq_getElem?_getD, List.getElem?_set_self h]
  rfl

/-- Generic `getD` after `set` at a different position. -/
theorem getD_set_other' {α : Type} {l : List α} {i j : Nat} {v d : α}
    (h : i ≠ j) : (l.set i v).getD j d = l.getD j d := by
  rw [List.getD_eq_getElem?_getD, List.getElem?_set_ne h,
    ← List.getD_eq_getElem?_getD]

/-- `getD` on `replicate` with the replicated default. -/
theorem getD_replicate_any {α : Type} (m v : Nat) (a : α) :
    (List.replicate m a).getD v a = a := by
  by_cases h : v < m
  · rw [List.getD_eq_getElem _ _ (by simpa using h)]
    exact List.getElem_replicate ..
  · rw [List.getD_eq_getElem?_getD, List.getElem?_eq_none (by simpa using h)]
    rfl

/-- Membership in `belowSame`. -/
theorem mem_belowSame {lab : List Nat} {i j : Nat} :
    j ∈ belowSame lab i ↔ j < i ∧ lab.getD j 0 = lab.getD i 0 := by
  simp [belowSame, List.mem_filter, List.mem_range]

/-- `foldr max` with a nonzero base. -/
theorem foldr_max_acc (l : List Nat) (b : Nat) :
    l.foldr max b = max (l.foldr max 0) b := by
  induction l with
  | nil => simp
  | cons a t ih => simp [ih, Nat.max_assoc]

/-- `createFromDcycle` as a fold of `cfdStep`. -/
theorem createFromDcycle_eq_fold (lab : List Nat) :
    createFromDcycle lab =
      ⟨((List.range lab.length).foldl (cfdStep lab)
        (List.replicate lab.length none, List.replicate lab.length 0)).2⟩ := rfl

/-- Peeling one step of an ascending range fold. -/
theorem foldl_range_succ {α : Type} (f : α → Nat → α) (init : α) (i : Nat) :
    (List.range (i + 1)).foldl f init = f ((List.range i).foldl f init) i := by
  rw [List.range_succ, List.foldl_append]
  rfl

/-- Invariant of the `createFromDcycle` fold: after processing the indices
below `i`, the `prev` table holds, for every label value, the most recent
index carrying it, and the output table holds `prevSame` on the processed
prefix. -/
theorem cfd_fold_spec (lab : List Nat)
    (hlt : ∀ j, j < lab.length → lab.getD j 0 < lab.length) :
    ∀ i, i ≤ lab.length →
    ((List.range i).foldl (cfdStep lab)
        (List.replicate lab.length none, List.replicate lab.length 0)).1.length
        = lab.length ∧
    ((List.range i).foldl (cfdStep lab)
        (List.replicate lab.length none, List.replicate lab.length 0)).2.length
        = lab.length ∧
    (∀ v, v < lab.length →
      ((List.range i).foldl (cfdStep lab)
        (List.replicate lab.length none, List.replicate lab.length 0)).1.getD
          v none =
        (if ((List.range i).filter (fun j => decide (lab.getD j 0 = v))) = []
         then none
         else some (((List.range i).filter
            (fun j => decide (lab.getD j 0 = v))).foldr max 0))) ∧
    (∀ j, j < i →
      ((List.range i).foldl (cfdStep lab)
        (List.replicate lab.length none, List.replicate lab.length 0)).2.getD
          j 0 = prevSame lab j) := by
  intro i
  induction i with
  | zero =>
    intro _
    refine ⟨by simp, by simp, ?_, ?_⟩
    · intro v _
      simp [getD_replicate_any]
    · intro j hj; omega
  | succ i ih =>
    intro hi
    obtain ⟨p1, p2, p3, p4⟩ := ih (by omega)
    have hiltn : i < lab.length := by omega
    have hdi : lab.getD i 0 < lab.length := hlt i hiltn
    rw [foldl_range_succ]
    have hfiltsucc : ∀ v : Nat,
        (List.range (i + 1)).filter (fun j => decide (lab.getD j 0 = v)) =
          ((List.range i).filter (fun j => decide (lab.getD j 0 = v))) ++
            (if lab.getD i 0 = v then [i] else []) := by
      intro v
      rw [List.range_succ, List.filter_append]
      congr 1
      by_cases h : lab.getD i 0 = v
      · rw [List.filter_singleton, decide_eq_true h, if_pos h]
        rfl
      · rw [List.filter_singleton, decide_eq_false h, if_neg h]
        rfl
    by_cases hcase :
        (List.range i).filter
          (fun j => decide (lab.getD j 0 = lab.getD i 0)) = []
    · -- first occurrence of the label of i
      have hprev : (((List.range i).foldl (cfdStep lab)
          (List.replicate lab.length none,
            List.replicate lab.length 0)).1).getD (lab.getD i 0) none =
          none := by
        rw [p3 _ hdi, if_pos hcase]
      have hstep : cfdStep lab ((List.range i).foldl (cfdStep lab)
          (List.replicate lab.length none, List.replicate lab.length 0)) i =
          (((List.range i).foldl (cfdStep lab)
            (List.replicate lab.length none,
              List.replicate lab.length 0)).1.set (lab.getD i 0) (some i),
           ((List.range i).foldl (cfdStep lab)
            (List.replicate lab.length none,
              List.replicate lab.length 0)).2.set i (lab.getD i 0)) := by
        simp only [cfdStep]
        rw [hprev]
      rw [hstep]
      refine ⟨by simp [p1], by simp [p2], ?_, ?_⟩
      · intro v hv
        rw [hfiltsucc v]
        by_cases hvdi : lab.getD i 0 = v
        · subst hvdi
          rw [getD_set_self' (by rw [p1]; exact hdi)]
          rw [if_neg (by simp [hcase])]
          rw [hcase]
          simp
        · rw [getD_set_other' hvdi, p3 v hv]
          simp only [if_neg hvdi]
          by_cases hempty : (List.range i).filter
              (fun j => decide (lab.getD j 0 = v)) = [] <;>
            simp [hempty]
      · intro j hj
        by_cases hji : j = i
        · subst hji
          rw [getD_set_self' (by rw [p2]; exact hiltn)]
          unfold prevSame
          rw [if_pos (show belowSame lab j = [] from hcase)]
        · rw [getD_set_other' (fun h => hji h.symm), p4 j (by omega)]
    · -- the label of i has occurred before
      have hprev : (((List.range i).foldl (cfdStep lab)
          (List.replicate lab.length none,
            List.replicate lab.length 0)).1).getD (lab.getD i 0) none =
          some (((List.range i).filter
            (fun j => decide (lab.getD j 0 = lab.getD i 0))).foldr max 0) := by
        rw [p3 _ hdi, if_neg hcase]
      have hstep : cfdStep lab ((List.range i).foldl (cfdStep lab)
          (List.replicate lab.length none, List.replicate lab.length 0)) i =
          (((List.range i).foldl (cfdStep lab)
            (List.replicate lab.length none,
              List.replicate lab.length 0)).1.set (lab.getD i 0) (some i),
           ((List.range i).foldl (cfdStep lab)
            (List.replicate lab.length none,
              List.replicate lab.length 0)).2.set i
            (((List.range i).filter
              (fun j => decide (lab.getD j 0 = lab.getD i 0))).foldr
                max 0)) := by
        simp only [cfdStep]
        rw [hprev]
      rw [hstep]
      refine ⟨by simp [p1], by simp [p2], ?_, ?_⟩
      · intro v hv
        rw [hfiltsucc v]
        by_cases hvdi : lab.getD i 0 = v
        · subst hvdi
          rw [getD_set_self' (by rw [p1]; exact hdi)]
          rw [if_pos rfl]
          rw [if_neg (by simp)]
          rw [List.foldr_append]
          have h1 : ([i] : List Nat).foldr max 0 = i := by simp
          rw [h1, foldr_max_acc]
          have hle : ((List.range i).filter
              (fun j => decide (lab.getD j 0 = lab.getD i 0))).foldr max 0 ≤
              i := by
            apply foldr_max_le
            intro x hx
            have := List.mem_range.mp (List.mem_filter.mp hx).1
            omega
          rw [max_eq_right hle]
        · rw [getD_set_other' hvdi, p3 v hv]
          simp only [if_neg hvdi]
          by_cases hempty : (List.range i).filter
              (fun j => decide (lab.getD j 0 = v)) = [] <;>
            simp [hempty]
      · intro j hj
        by_cases hji : j = i
        · subst hji
          rw [getD_set_self' (by rw [p2]; exact hiltn)]
          unfold prevSame
          rw [if_neg (show ¬ belowSame lab j = [] from hcase)]
          rfl
        · rw [getD_set_other' (fun h => hji h.symm), p4 j (by omega)]

/-- The permutation built by `createFromDcycle`: index `i` maps to the
previous occurrence of its label (or to the label itself when first). -/
theorem createFromDcycle_char (lab : List Nat)
    (hlt : ∀ j, j < lab.length → lab.getD j 0 < lab.length) :
    createFromDcycle lab =
      ⟨(List.range lab.length).map (fun i => prevSame lab i)⟩ := by
  rw [createFromDcycle_eq_fold]
  obtain ⟨p1, p2, p3, p4⟩ := cfd_fold_spec lab hlt lab.length (le_refl _)
  congr 1
  refine List.ext_getElem (by simp [p2]) ?_
  intro j h₁ h₂
  have hj : j < lab.length := by rw [p2] at h₁; exact h₁
  rw [← List.getD_eq_getElem _ 0, ← List.getD_eq_getElem _ 0, p4 j hj]
  rw [List.getD_eq_getElem _ 0 (by simpa using hj)]
  simp

/-- The labelling relation is symmetric. -/
theorem labRel_symm {lab : List Nat} {i j : Nat} (h : labRel lab i j) :
    labRel lab j i := h.symm

/-- Closed form of a downward cyclic step. -/
theorem walk_closed {n x d : Nat} (hx : x < n) (hd1 : 1 ≤ d) (hdn : d ≤ n) :
    (x + n - d) % n = if d ≤ x then x - d else x + n - d := by
  by_cases h : d ≤ x
  · rw [if_pos h]
    have : x + n - d = (x - d) + n := by omega
    rw [this, Nat.add_mod_right]
    exact Nat.mod_eq_of_lt (by omega)
  · rw [if_neg h]
    exact Nat.mod_eq_of_lt (by omega)

/-- A downward cyclic walk position determines the step count. -/
theorem walk_inj {n x d₁ d₂ : Nat} (hx : x < n) (h1 : 1 ≤ d₁) (h1' : d₁ ≤ n)
    (h2 : 1 ≤ d₂) (h2' : d₂ ≤ n)
    (h : (x + n - d₁) % n = (x + n - d₂) % n) : d₁ = d₂ := by
  rw [walk_closed hx h1 h1', walk_closed hx h2 h2'] at h
  by_cases c1 : d₁ ≤ x <;> by_cases c2 : d₂ ≤ x
  · rw [if_pos c1, if_pos c2] at h; omega
  · rw [if_pos c1, if_neg c2] at h; omega
  · rw [if_neg c1, if_pos c2] at h; omega
  · rw [if_neg c1, if_neg c2] at h; omega

/-- The class maximum of a labelling is in range. -/
theorem classMaxOf_lt {lab : List Nat} {n i : Nat} (hi : i < n) :
    classMaxOf lab n i < n := by
  have hmem : classMaxOf lab n i ∈ (List.range n).filter
      (fun j => decide (lab.getD j 0 = lab.getD i 0)) := by
    apply foldr_max_mem
    intro h
    have : i ∈ (List.range n).filter
        (fun j => decide (lab.getD j 0 = lab.getD i 0)) :=
      List.mem_filter.mpr ⟨List.mem_range.mpr hi, by simp⟩
    rw [h] at this
    cases this
  exact List.mem_range.mp (List.mem_filter.mp hmem).1

/-- The class maximum carries the same label. -/
theorem classMaxOf_labEq {lab : List Nat} {n i : Nat} (hi : i < n) :
    lab.getD (classMaxOf lab n i) 0 = lab.getD i 0 := by
  have hmem : classMaxOf lab n i ∈ (List.range n).filter
      (fun j => decide (lab.getD j 0 = lab.getD i 0)) := by
    apply foldr_max_mem
    intro h
    have : i ∈ (List.range n).filter
        (fun j => decide (lab.getD j 0 = lab.getD i 0)) :=
      List.mem_filter.mpr ⟨List.mem_range.mpr hi, by simp⟩
    rw [h] at this
    cases this
  have := (List.mem_filter.mp hmem).2
  simpa using this

/-- Every class member bounds below the class maximum. -/
theorem le_classMaxOf {lab : List Nat} {n i j : Nat} (hj : j < n)
    (h : lab.getD j 0 = lab.getD i 0) : j ≤ classMaxOf lab n i := by
  apply le_foldr_max
  exact List.mem_filter.mpr ⟨List.mem_range.mpr hj, decide_eq_true h⟩

/-- Class maxima agree exactly on equal labels. -/
theorem classMaxOf_eq_iff {lab : List Nat} {n i j : Nat} (hi : i < n)
    (hj : j < n) :
    classMaxOf lab n i = classMaxOf lab n j ↔
      lab.getD i 0 = lab.getD j 0 := by
  constructor
  · intro h
    have h1 := @classMaxOf_labEq lab _ _ hi
    have h2 := @classMaxOf_labEq lab _ _ hj
    rw [h] at h1
    rw [← h1, h2]
  · intro h
    unfold classMaxOf
    have hf : (fun a => decide (lab.getD a 0 = lab.getD i 0)) =
        (fun a => decide (lab.getD a 0 = lab.getD j 0)) := by
      funext a
      apply decide_eq_decide.mpr
      rw [h]
    rw [hf]

/-- On labellings whose labels are the class maxima, `prevSame` is the
cyclic predecessor. -/
theorem prevSame_eq_cycPred {lab : List Nat} {n i : Nat}
    (hmax : lab.getD i 0 = classMaxOf lab n i) :
    prevSame lab i = cycPred lab n i := by
  unfold prevSame cycPred
  by_cases h : belowSame lab i = []
  · rw [if_pos h, if_pos h, hmax]
  · rw [if_neg h, if_neg h]

/-- The three descending-cycle laws make a labelling class-maximal. -/
theorem labels_classMaxOf_of_laws {c : List Nat} {n : Nat}
    (hge : ∀ v, v < n → v ≤ c.getD v 0)
    (hlt : ∀ v, v < n → c.getD v 0 < n)
    (hidem : ∀ v, v < n → c.getD (c.getD v 0) 0 = c.getD v 0) :
    ∀ i, i < n → c.getD i 0 = classMaxOf c n i := by
  intro i hi
  apply Nat.le_antisymm
  · exact le_classMaxOf (hlt i hi) (hidem i hi)
  · apply foldr_max_le
    intro x hx
    obtain ⟨hxr, hxp⟩ := List.mem_filter.mp hx
    have hxn : x < n := List.mem_range.mp hxr
    have : c.getD x 0 = c.getD i 0 := by simpa using hxp
    calc x ≤ c.getD x 0 := hge x hxn
    _ = c.getD i 0 := this

/-- The cyclic predecessor satisfies its walk specification. -/
theorem cycPred_spec (lab : List Nat) (n i : Nat) (hi : i < n) :
    isCycPredRel (labRel lab) n i (cycPred lab n i) := by
  unfold cycPred
  by_cases hb : belowSame lab i = []
  · rw [if_pos hb]
    have hM := @classMaxOf_lt lab _ _ hi
    have hMeq := @classMaxOf_labEq lab _ _ hi
    have hiM : i ≤ classMaxOf lab n i := le_classMaxOf hi rfl
    refine ⟨i + n - classMaxOf lab n i, by omega, by omega, ?_, ?_, ?_⟩
    · rw [show i + n - (i + n - classMaxOf lab n i) = classMaxOf lab n i
        by omega]
      exact (Nat.mod_eq_of_lt hM).symm
    · exact hMeq.symm
    · intro e he1 he2 hE
      rw [walk_closed hi he1 (by omega)] at hE
      unfold labRel at hE
      by_cases hei : e ≤ i
      · rw [if_pos hei] at hE
        have : i - e ∈ belowSame lab i :=
          mem_belowSame.mpr ⟨by omega, hE.symm⟩
        rw [hb] at this
        cases this
      · rw [if_neg hei] at hE
        have hpos : i + n - e < n := by omega
        have hgt : classMaxOf lab n i < i + n - e := by omega
        have := @le_classMaxOf lab _ _ _ hpos hE.symm
        omega
  · rw [if_neg hb]
    have hmmem : (belowSame lab i).foldr max 0 ∈ belowSame lab i :=
      foldr_max_mem _ hb
    obtain ⟨hmlt, hmeq⟩ := mem_belowSame.mp hmmem
    refine ⟨i - (belowSame lab i).foldr max 0, by omega, by omega, ?_, ?_, ?_⟩
    · rw [show i + n - (i - (belowSame lab i).foldr max 0) =
        (belowSame lab i).foldr max 0 + n by omega, Nat.add_mod_right]
      exact (Nat.mod_eq_of_lt (by omega)).symm
    · exact hmeq.symm
    · intro e he1 he2 hE
      rw [walk_closed hi he1 (by omega)] at hE
      rw [if_pos (by omega)] at hE
      unfold labRel at hE
      have : i - e ∈ belowSame lab i := mem_belowSame.mpr ⟨by omega, hE.symm⟩
      have := le_foldr_max _ _ this
      omega

/-- The walk specification has a unique solution. -/
theorem isCycPredRel_unique {E : Nat → Nat → Prop} {n i r r' : Nat}
    (h : isCycPredRel E n i r) (h' : isCycPredRel E n i r') : r = r' := by
  obtain ⟨d, hd1, hdn, hr, hE, hmin⟩ := h
  obtain ⟨d', hd1', hdn', hr', hE', hmin'⟩ := h'
  rcases Nat.lt_trichotomy d d' with hdd | hdd | hdd
  · exact absurd (hr ▸ hE) (hmin' d hd1 hdd)
  · rw [hr, hr', hdd]
  · exact absurd (hr' ▸ hE') (hmin d' hd1' hdd)

/-- The walk specification only depends on the relation extensionally. -/
theorem isCycPredRel_congr {E E' : Nat → Nat → Prop} {n i r : Nat}
    (h : ∀ a b, E a b ↔ E' a b) (hc : isCycPredRel E n i r) :
    isCycPredRel E' n i r := by
  obtain ⟨d, hd1, hdn, hr, hE, hmin⟩ := hc
  exact ⟨d, hd1, hdn, hr, (h _ _).mp hE,
    fun e he1 he2 hE' => hmin e he1 he2 ((h _ _).mpr hE')⟩

/-- Reassociation of a mod inside a downward walk. -/
theorem mod_walk_assoc {n : Nat} (a b : Nat) (hb : b ≤ n) :
    (a % n + n - b) % n = (a + n - b) % n := by
  have h1 : a % n + n - b = a % n + (n - b) := by omega
  rw [h1, Nat.mod_add_mod, show a + (n - b) = a + n - b by omega]

/-- Equivariance of the walk specification under the cyclic shift by `pn`:
a predecessor for the relation at the pulled-back index pushes forward to a
predecessor of the pulled-back relation at the original index. -/
theorem isCycPredRel_shift {E : Nat → Nat → Prop} {n pn i r : Nat}
    (hn : 0 < n) (hpn : pn < n) (hi : i < n)
    (h : isCycPredRel E n ((i + n - pn) % n) r) :
    isCycPredRel (fun a b => E ((a + n - pn) % n) ((b + n - pn) % n)) n i
      ((r + pn) % n) := by
  obtain ⟨d, hd1, hdn, hr, hE, hmin⟩ := h
  have hrn : r < n := by rw [hr]; exact Nat.mod_lt _ hn
  have hback : ((r + pn) % n + n - pn) % n = r := by
    rw [mod_walk_assoc _ _ (le_of_lt hpn),
      show r + pn + n - pn = r + n by omega, Nat.add_mod_right]
    exact Nat.mod_eq_of_lt hrn
  refine ⟨d, hd1, hdn, ?_, ?_, ?_⟩
  · rw [hr, mod_walk_assoc _ _ hdn, Nat.mod_add_mod,
      show i + n - pn + n - d + pn = (i + n - d) + n by omega,
      Nat.add_mod_right]
  · show E ((i + n - pn) % n) (((r + pn) % n + n - pn) % n)
    rw [hback]
    exact hE
  · intro e he1 he2 hE'
    apply hmin e he1 he2
    have harg : ((i + n - e) % n + n - pn) % n =
        ((i + n - pn) % n + n - e) % n := by
      rw [mod_walk_assoc _ _ (le_of_lt hpn),
        show i + n - e + n - pn = i + n - pn + n - e by omega,
        ← mod_walk_assoc _ _ (show e ≤ n by omega)]
    have hb : E ((i + n - pn) % n) (((i + n - e) % n + n - pn) % n) := hE'
    rw [harg] at hb
    exact hb

/-- The cyclic predecessor is injective on `[0, n)`. -/
theorem cycPred_inj {lab : List Nat} {n a b : Nat} (ha : a < n) (hb : b < n)
    (h : cycPred lab n a = cycPred lab n b) : a = b := by
  by_contra hab
  obtain ⟨da, hda1, hdan, hra, hEa, hmina⟩ := cycPred_spec lab n a ha
  obtain ⟨db, hdb1, hdbn, hrb, hEb, hminb⟩ := cycPred_spec lab n b hb
  have hEab : labRel lab a b := by
    unfold labRel at hEa hEb ⊢
    rw [h] at hEa
    rw [hEa, ← hEb]
  -- distance from a down to b, and its complement
  have he : ∃ e, 1 ≤ e ∧ e ≤ n - 1 ∧ (a + n - e) % n = b ∧
      (b + n - (n - e)) % n = a := by
    by_cases hba : b < a
    · refine ⟨a - b, by omega, by omega, ?_, ?_⟩
      · rw [show a + n - (a - b) = b + n by omega, Nat.add_mod_right]
        exact Nat.mod_eq_of_lt hb
      · rw [walk_closed hb (by omega) (by omega), if_neg (by omega)]
        omega
    · have hba' : a < b := by omega
      refine ⟨a + n - b, by omega, by omega, ?_, ?_⟩
      · rw [show a + n - (a + n - b) = b by omega]
        exact Nat.mod_eq_of_lt hb
      · rw [show b + n - (n - (a + n - b)) = a + n by omega,
          Nat.add_mod_right]
        exact Nat.mod_eq_of_lt ha
  obtain ⟨e, he1, hen, heab, heba⟩ := he
  -- minimality forces the walk from a to pass b no earlier than da
  have hea : da ≤ e := by
    by_contra hlt
    exact hmina e he1 (by omega) (heab ▸ hEab)
  have heb : db ≤ n - e := by
    by_contra hlt
    exact hminb (n - e) (by omega) (by omega)
      (heba ▸ (labRel_symm hEab))
  -- both reach the same point: step counts around the circle conflict
  have hsame : (a + n - da) % n = (b + n - db) % n := by
    rw [← hra, ← hrb, h]
  have hb' : (b + n - db) % n = (a + n - (e + db)) % n := by
    rw [← heab]
    have h1 : (a + n - e) % n + n - db = (a + n - e) % n + (n - db) := by
      omega
    have h2 : ((a + n - e) % n + n - db) % n = (a + n - e + n - db) % n := by
      rw [h1, Nat.mod_add_mod,
        show (a + n - e) + (n - db) = a + n - e + n - db by omega]
    rw [h2, show a + n - e + n - db = a + n - (e + db) + n by omega,
      Nat.add_mod_right]
  rw [hb'] at hsame
  have : da = e + db := by
    have hed : 1 ≤ e + db := by omega
    have hedn : e + db ≤ n := by omega
    exact walk_inj ha hda1 hdan hed hedn hsame
  omega

/-- Lower bound of `foldr min`. -/
theorem foldr_min_le : ∀ (l : List Nat) (d x : Nat), x ∈ l →
    l.foldr min d ≤ x := by
  intro l
  induction l with
  | nil => intro d x hx; cases hx
  | cons a t ih =>
    intro d x hx
    rcases List.mem_cons.mp hx with rfl | hx
    · exact min_le_left ..
    · exact le_trans (min_le_right ..) (ih d x hx)

/-- A nonempty list of naturals below the default contains its
`foldr min`. -/
theorem foldr_min_mem : ∀ (l : List Nat) (d : Nat), l ≠ [] →
    (∀ x ∈ l, x < d) → l.foldr min d ∈ l := by
  intro l
  induction l with
  | nil => intro d h _; exact absurd rfl h
  | cons a t ih =>
    intro d _ hlt
    match t, ih with
    | [], _ =>
      simp only [List.foldr_cons, List.foldr_nil]
      rw [min_eq_left (le_of_lt (hlt a (List.mem_cons_self ..)))]
      exact List.mem_cons_self ..
    | b :: t', ih =>
      rcases Nat.le_total a ((b :: t').foldr min d) with h | h
      · rw [List.foldr_cons, min_eq_left h]
        exact List.mem_cons_self ..
      · rw [List.foldr_cons, min_eq_right h]
        exact List.mem_cons_of_mem _ (ih d (by simp)
          (fun x hx => hlt x (List.mem_cons_of_mem _ hx)))

/-- Membership in `aboveSame`. -/
theorem mem_aboveSame {lab : List Nat} {n i j : Nat} :
    j ∈ aboveSame lab n i ↔
      j < n ∧ lab.getD j 0 = lab.getD i 0 ∧ i < j := by
  simp [aboveSame, List.mem_filter, List.mem_range, and_assoc]

/-- The descending-cycle array of a permutation acting as the cyclic
predecessor of a labelling assigns every index its class maximum. -/
theorem dCycles_cycPred_map (lab : List Nat) (n : Nat) (X : Permutation)
    (hX : X.array_form = (List.range n).map (fun i => cycPred lab n i)) :
    ∀ i, i < n → (dCycles X).getD i 0 = classMaxOf lab n i := by
  have hsize : X.size = n := by
    rw [Permutation.size, hX, List.length_map, List.length_range]
  have harr : ∀ j, j < n → X.array_form.getD j 0 = cycPred lab n j := by
    intro j hj
    rw [hX, List.getD_eq_getElem _ 0
      (by rw [List.length_map, List.length_range]; exact hj)]
    simp
  have main : ∀ (d v : Nat), v < n → n - v ≤ d →
      (dScan X.array_form n (List.range n)).getD v 0 =
        classMaxOf lab n v := by
    intro d
    induction d with
    | zero => intro v hv hd; omega
    | succ d ih =>
      intro v hv hd
      by_cases hex : ∃ w, w < n ∧ cycPred lab n w = v ∧ v < w
      · obtain ⟨w, hwn, hcp, hvw⟩ := hex
        have harrw : X.array_form.getD w 0 = v := by rw [harr w hwn, hcp]
        have huniq : ∀ j, j < n → j ≠ w →
            ¬(X.array_form.getD j 0 = v ∧ X.array_form.getD j 0 < j) := by
          intro j hj hjw ⟨h1, h2⟩
          rw [harr j hj] at h1
          exact hjw (cycPred_inj hj hwn (h1.trans hcp.symm))
        have heq : (dScan X.array_form n (List.range n)).getD v 0 =
            (dScan X.array_form n (List.range n)).getD w 0 :=
          dScan_writer X.array_form n _ v w hwn harrw hvw huniq
            (by simpa using hv)
        have hlabvw : lab.getD w 0 = lab.getD v 0 := by
          obtain ⟨_, _, _, _, hE, _⟩ := cycPred_spec lab n w hwn
          unfold labRel at hE
          rw [hcp] at hE
          exact hE
        rw [heq, ih w hwn (by omega)]
        exact (classMaxOf_eq_iff hwn hv).mpr hlabvw
      · have hnw : ∀ j, j < n →
            ¬(X.array_form.getD j 0 = v ∧ X.array_form.getD j 0 < j) := by
          intro j hj ⟨h1, h2⟩
          rw [harr j hj] at h1
          exact hex ⟨j, hj, h1, by rw [← h1]; rw [harr j hj] at h2; exact h2⟩
        have hfix : (dScan X.array_form n (List.range n)).getD v 0 = v := by
          rw [dScan_nowrite X.array_form n _ v hnw, getD_range hv]
        rw [hfix]
        by_contra hne
        have hvM : v < classMaxOf lab n v :=
          lt_of_le_of_ne (le_classMaxOf hv rfl) hne
        have habove : classMaxOf lab n v ∈ aboveSame lab n v :=
          mem_aboveSame.mpr ⟨classMaxOf_lt hv, classMaxOf_labEq hv, hvM⟩
        have hanene : aboveSame lab n v ≠ [] := by
          intro h; rw [h] at habove; cases habove
        have haltn : ∀ x ∈ aboveSame lab n v, x < n := by
          intro x hx; exact (mem_aboveSame.mp hx).1
        have hwmem : (aboveSame lab n v).foldr min n ∈ aboveSame lab n v :=
          foldr_min_mem _ n hanene haltn
        obtain ⟨hwn, hwlab, hvw⟩ := mem_aboveSame.mp hwmem
        have hcpw : cycPred lab n ((aboveSame lab n v).foldr min n) = v := by
          have hvbelow : v ∈ belowSame lab ((aboveSame lab n v).foldr min n) :=
            mem_belowSame.mpr ⟨hvw, by rw [hwlab]⟩
          have hbne : belowSame lab ((aboveSame lab n v).foldr min n) ≠ [] := by
            intro h; rw [h] at hvbelow; cases hvbelow
          unfold cycPred
          rw [if_neg hbne]
          obtain ⟨hmlt, hmlab⟩ := mem_belowSame.mp
            (foldr_max_mem _ hbne)
          have hvle : v ≤ (belowSame lab
              ((aboveSame lab n v).foldr min n)).foldr max 0 :=
            le_foldr_max _ _ hvbelow
          by_contra hmv
          have hmgt : v < (belowSame lab
              ((aboveSame lab n v).foldr min n)).foldr max 0 :=
            lt_of_le_of_ne hvle (fun h => hmv h.symm)
          have hmabove : (belowSame lab
              ((aboveSame lab n v).foldr min n)).foldr max 0 ∈
              aboveSame lab n v := by
            refine mem_aboveSame.mpr ⟨by omega, ?_, hmgt⟩
            rw [hmlab, hwlab]
          have := foldr_min_le (aboveSame lab n v) n _ hmabove
          omega
        exact hex ⟨(aboveSame lab n v).foldr min n, hwn, hcpw, hvw⟩
  intro i hi
  rw [dCycles_eq_dScan, hsize]
  exact main (n - i) i hi (le_refl _)

/-- The pair-class maximum is in range. -/
theorem classMax_lt {sc oc : List Nat} {n i : Nat} (hi : i < n) :
    classMax sc oc n i < n := by
  have hmem : classMax sc oc n i ∈ (List.range n).filter
      (fun j => decide (cyclePair sc oc j = cyclePair sc oc i)) := by
    apply foldr_max_mem
    intro h
    have : i ∈ (List.range n).filter
        (fun j => decide (cyclePair sc oc j = cyclePair sc oc i)) :=
      List.mem_filter.mpr ⟨List.mem_range.mpr hi, by simp⟩
    rw [h] at this
    cases this
  exact List.mem_range.mp (List.mem_filter.mp hmem).1

/-- The pair-class maximum carries the same cycle-value pair. -/
theorem classMax_pairEq {sc oc : List Nat} {n i : Nat} (hi : i < n) :
    cyclePair sc oc (classMax sc oc n i) = cyclePair sc oc i := by
  have hmem : classMax sc oc n i ∈ (List.range n).filter
      (fun j => decide (cyclePair sc oc j = cyclePair sc oc i)) := by
    apply foldr_max_mem
    intro h
    have : i ∈ (List.range n).filter
        (fun j => decide (cyclePair sc oc j = cyclePair sc oc i)) :=
      List.mem_filter.mpr ⟨List.mem_range.mpr hi, by simp⟩
    rw [h] at this
    cases this
  have := (List.mem_filter.mp hmem).2
  simpa using this

/-- Pair-class maxima agree exactly on equal cycle-value pairs. -/
theorem classMax_eq_iff' {sc oc : List Nat} {n i j : Nat} (hi : i < n)
    (hj : j < n) :
    classMax sc oc n i = classMax sc oc n j ↔
      cyclePair sc oc i = cyclePair sc oc j := by
  constructor
  · intro h
    have h1 := @classMax_pairEq sc oc _ _ hi
    have h2 := @classMax_pairEq sc oc _ _ hj
    rw [h] at h1
    rw [← h1, h2]
  · intro h
    unfold classMax
    have hf : (fun a => decide (cyclePair sc oc a = cyclePair sc oc i)) =
        (fun a => decide (cyclePair sc oc a = cyclePair sc oc j)) := by
      funext a
      apply decide_eq_decide.mpr
      rw [h]
    rw [hf]

/-- `tau` preserves the table length. -/
theorem tau_size (x : Permutation) (p : Int) : (tau x p).size = x.size := by
  unfold tau Permutation.size
  rw [List.length_map, List.length_range]

/-- The natural residue of an integer power is below a positive modulus. -/
theorem emod_toNat_lt (p : Int) (n : Nat) (hn : 0 < n) :
    (p.emod n).toNat < n := by
  have hne : (n : Int) ≠ 0 := by exact_mod_cast Nat.pos_iff_ne_zero.mp hn
  have h1 : 0 ≤ p.emod n := Int.emod_nonneg p hne
  have h2 : p.emod n < n := Int.emod_lt_of_pos p (by exact_mod_cast hn)
  omega

/-- Integer shift modulo `n` in terms of the natural residue. -/
theorem int_add_emod_toNat (n : Nat) (hn : 0 < n) (p : Int) (v : Nat) :
    (((v : Int) + p).emod n).toNat = (v + (p.emod n).toNat) % n := by
  have hne : (n : Int) ≠ 0 := by exact_mod_cast Nat.pos_iff_ne_zero.mp hn
  have h0 : 0 ≤ p.emod n := Int.emod_nonneg p hne
  have hde : (n : Int) * (p / n) + p.emod n = p := Int.ediv_add_emod p n
  have hsplit : ((v : Int) + p) =
      ((v + (p.emod n).toNat : Nat) : Int) + n * (p / n) := by
    push_cast [Int.toNat_of_nonneg h0]
    linarith [hde]
  show ((((v : Int) + p)) % (n : Int)).toNat = _
  rw [hsplit, Int.add_mul_emod_self_left]
  rw [show ((v + (p.emod n).toNat : Nat) : Int) % (n : Int) =
    (((v + (p.emod n).toNat) % n : Nat) : Int) from (Int.natCast_mod _ _).symm]
  exact Int.toNat_natCast _

/-- Integer downward shift modulo `n` in terms of the natural residue. -/
theorem int_sub_emod_toNat (n : Nat) (hn : 0 < n) (p : Int) (v : Nat) :
    (((v : Int) - p).emod n).toNat = (v + n - (p.emod n).toNat) % n := by
  have hne : (n : Int) ≠ 0 := by exact_mod_cast Nat.pos_iff_ne_zero.mp hn
  have h0 : 0 ≤ p.emod n := Int.emod_nonneg p hne
  have hpn : (p.emod n).toNat < n := by
    have h2 : p.emod n < n := Int.emod_lt_of_pos p (by exact_mod_cast hn)
    omega
  have hde : (n : Int) * (p / n) + p.emod n = p := Int.ediv_add_emod p n
  have hsplit : ((v : Int) - p) =
      ((v + n - (p.emod n).toNat : Nat) : Int) + n * (-1 - p / n) := by
    push_cast [Int.toNat_of_nonneg h0,
      Nat.cast_sub (show (p.emod (n:Int)).toNat ≤ v + n by omega)]
    have hexp : (n : Int) * (-1 - p / n) = -(n : Int) - n * (p / n) := by
      ring
    rw [hexp]
    linarith [hde]
  show ((((v : Int) - p)) % (n : Int)).toNat = _
  rw [hsplit, Int.add_mul_emod_self_left]
  rw [show ((v + n - (p.emod n).toNat : Nat) : Int) % (n : Int) =
    (((v + n - (p.emod n).toNat) % n : Nat) : Int) from
      (Int.natCast_mod _ _).symm]
  exact Int.toNat_natCast _

/-- Pointwise description of `tau` through the natural residue. -/
theorem tau_getD (x : Permutation) (p : Int) (n : Nat) (hx : x.size = n)
    (hn : 0 < n) (i : Nat) (hi : i < n) :
    (tau x p).array_form.getD i 0 =
      (x.array_form.getD ((i + n - (p.emod n).toNat) % n) 0 +
        (p.emod n).toNat) % n := by
  unfold tau
  rw [hx]
  rw [List.getD_eq_getElem _ 0
    (by rw [List.length_map, List.length_range]; exact hi)]
  simp only [List.getElem_map, List.getElem_range]
  rw [int_sub_emod_toNat n hn p i, int_add_emod_toNat n hn p _]

/-- `getD` on `labShift`. -/
theorem labShift_getD {lab : List Nat} {n pn i : Nat} (hi : i < n) :
    (labShift lab n pn).getD i 0 = lab.getD ((i + n - pn) % n) 0 := by
  unfold labShift
  rw [List.getD_eq_getElem _ 0
    (by rw [List.length_map, List.length_range]; exact hi)]
  simp

/-- A valid canonical factor acts as the cyclic predecessor of its
descending-cycle labelling. -/
theorem valid_eq_cycPred_map (A : Permutation) (n : Nat) (hA : A.size = n)
    (hPA : isPermTable A) (hCA : isCanonical A) :
    A.array_form =
      (List.range n).map (fun i => cycPred (dCycles A) n i) := by
  have hinj := isPermTable_inj A hPA
  have hfinal := dScan_range_final A.array_form A.size hinj
  have hclen : (dCycles A).length = n := by
    rw [dCycles_eq_dScan, dScan_length, List.length_range, hA]
  have hge : ∀ v, v < n → v ≤ (dCycles A).getD v 0 := by
    intro v hv
    rw [dCycles_eq_dScan]
    exact (hfinal v (by omega)).1
  have hlt : ∀ v, v < n → (dCycles A).getD v 0 < n := by
    intro v hv
    rw [dCycles_eq_dScan]
    have := (hfinal v (by omega)).2.1
    omega
  have hidem : ∀ v, v < n →
      (dCycles A).getD ((dCycles A).getD v 0) 0 = (dCycles A).getD v 0 := by
    intro v hv
    rw [dCycles_eq_dScan]
    exact (hfinal v (by omega)).2.2
  have hmax := labels_classMaxOf_of_laws hge hlt hidem
  have hchar := createFromDcycle_char (dCycles A)
    (by rw [hclen]; intro j hj; exact hlt j hj)
  rw [hclen] at hchar
  have hAeq : A = Permutation.mk
      ((List.range n).map (fun i => prevSame (dCycles A) i)) :=
    hCA.symm.trans hchar
  rw [show A.array_form =
    (List.range n).map (fun i => prevSame (dCycles A) i) from
    congrArg Permutation.array_form hAeq]
  apply List.map_congr_left
  intro i hi
  exact prevSame_eq_cycPred (hmax i (List.mem_range.mp hi))

/-- `getD` of a map over a range. -/
theorem getD_map_range {f : Nat → Nat} {n i : Nat} (hi : i < n) :
    ((List.range n).map f).getD i 0 = f i := by
  rw [List.getD_eq_getElem _ 0
    (by rw [List.length_map, List.length_range]; exact hi)]
  simp

/-- Permutations with equal tables are equal. -/
theorem perm_ext {x y : Permutation} (h : x.array_form = y.array_form) :
    x = y := by
  cases x; cases y; simpa using h

/-- Sharpened relation congruence for the walk specification: the relations
only need to agree below `n`. -/
theorem isCycPredRel_congr_lt {E F : Nat → Nat → Prop} {n i r : Nat}
    (hn : 0 < n) (hi : i < n)
    (h : ∀ a b, a < n → b < n → (E a b ↔ F a b))
    (hc : isCycPredRel E n i r) : isCycPredRel F n i r := by
  obtain ⟨d, hd1, hdn, hr, hE, hmin⟩ := hc
  have hrn : r < n := by rw [hr]; exact Nat.mod_lt _ hn
  refine ⟨d, hd1, hdn, hr, (h i r hi hrn).mp hE, ?_⟩
  intro e he1 he2 hF
  exact hmin e he1 he2 ((h i _ hi (Nat.mod_lt _ hn)).mpr hF)

/-- `τ` of a valid factor is the cyclic predecessor of the shifted
labelling. -/
theorem tau_eq_cycPred_map (A : Permutation) (n : Nat) (p : Int)
    (hn : 0 < n) (hA : A.size = n) (hPA : isPermTable A)
    (hCA : isCanonical A) :
    (tau A p).array_form = (List.range n).map
      (fun i => cycPred (labShift (dCycles A) n (p.emod n).toNat) n i) := by
  have hvalid := valid_eq_cycPred_map A n hA hPA hCA
  have hpn : (p.emod n).toNat < n := emod_toNat_lt p n hn
  have hAptw : ∀ j, j < n →
      A.array_form.getD j 0 = cycPred (dCycles A) n j := by
    intro j hj
    rw [hvalid, getD_map_range hj]
  refine List.ext_getElem ?_ ?_
  · rw [show (tau A p).array_form.length = (tau A p).size from rfl, tau_size,
      hA, List.length_map, List.length_range]
  · intro i h₁ h₂
    have hin : i < n := by
      have h := h₁
      rw [show (tau A p).array_form.length = (tau A p).size from rfl,
        tau_size, hA] at h
      exact h
    rw [← List.getD_eq_getElem _ 0, ← List.getD_eq_getElem _ 0,
      getD_map_range hin, tau_getD A p n hA hn i hin,
      hAptw _ (Nat.mod_lt _ hn)]
    have hiL : (i + n - (p.emod n).toNat) % n < n := Nat.mod_lt _ hn
    have hspec := cycPred_spec (dCycles A) n _ hiL
    have hshift := isCycPredRel_shift (E := labRel (dCycles A)) hn hpn hin
      hspec
    have hbridge : ∀ a b, a < n → b < n →
        ((fun a b => labRel (dCycles A) ((a + n - (p.emod n).toNat) % n)
          ((b + n - (p.emod n).toNat) % n)) a b ↔
          labRel (labShift (dCycles A) n (p.emod n).toNat) a b) := by
      intro a b ha hb
      unfold labRel
      rw [labShift_getD ha, labShift_getD hb]
    have hR := isCycPredRel_congr_lt hn hin hbridge hshift
    have hL := cycPred_spec (labShift (dCycles A) n (p.emod n).toNat) n i hin
    exact isCycPredRel_unique hR hL

/-- The descending-cycle labels of `τ` of a valid factor: class maxima of
the shifted labelling. -/
theorem dCycles_tau (A : Permutation) (n : Nat) (p : Int) (hn : 0 < n)
    (hA : A.size = n) (hPA : isPermTable A) (hCA : isCanonical A) :
    ∀ i, i < n → (dCycles (tau A p)).getD i 0 =
      classMaxOf (labShift (dCycles A) n (p.emod n).toNat) n i :=
  dCycles_cycPred_map _ n _ (tau_eq_cycPred_map A n p hn hA hPA hCA)

/-- Length of `meetLabels`. -/
theorem meetLabels_length (sc oc : List Nat) (n : Nat) :
    (meetLabels sc oc n).length = n := by
  simp [meetLabels]

/-- Entries of `meetLabels` are in range. -/
theorem meetLabels_lt (sc oc : List Nat) (n : Nat) :
    ∀ j, j < n → (meetLabels sc oc n).getD j 0 < n := by
  intro j hj
  rw [meetLabels_getD _ _ _ _ hj]
  exact classMax_lt hj

/-- The labels of `meetLabels` are the class maxima of its own labelling. -/
theorem meetLabels_selfmax (sc oc : List Nat) (n : Nat) :
    ∀ i, i < n → (meetLabels sc oc n).getD i 0 =
      classMaxOf (meetLabels sc oc n) n i := by
  intro i hi
  rw [meetLabels_getD _ _ _ _ hi]
  unfold classMaxOf
  have hfeq : (List.range n).filter
      (fun j => decide ((meetLabels sc oc n).getD j 0 =
        (meetLabels sc oc n).getD i 0)) =
      (List.range n).filter
        (fun j => decide (cyclePair sc oc j = cyclePair sc oc i)) := by
    apply List.filter_congr
    intro j hjr
    have hj : j < n := List.mem_range.mp hjr
    apply decide_eq_decide.mpr
    rw [meetLabels_getD _ _ _ _ hj, meetLabels_getD _ _ _ _ hi]
    exact classMax_eq_iff' hj hi
  rw [hfeq]
  rfl

/-- `meetCore` as a cyclic-predecessor map of the class-leader labelling. -/
theorem meetCore_cycPred_map (x y : Permutation) (n : Nat)
    (hx : x.size = n) (hy : y.size = n) (hn : 0 < n) :
    (meetCore x y).array_form = (List.range n).map
      (fun i => cycPred (meetLabels (dCycles x) (dCycles y) n) n i) := by
  rw [meetCore_eq_labels x y n hx hy (by omega)]
  have hchar := createFromDcycle_char (meetLabels (dCycles x) (dCycles y) n)
    (by rw [meetLabels_length]; exact meetLabels_lt _ _ _)
  rw [meetLabels_length] at hchar
  rw [hchar]
  apply List.map_congr_left
  intro i hi
  exact prevSame_eq_cycPred
    (meetLabels_selfmax _ _ _ i (List.mem_range.mp hi))

/-- Size of `meetCore`. -/
theorem meetCore_size (x y : Permutation) (n : Nat)
    (hx : x.size = n) (hy : y.size = n) (hn : 0 < n) :
    (meetCore x y).size = n := by
  rw [Permutation.size, meetCore_cycPred_map x y n hx hy hn,
    List.length_map, List.length_range]

/-- The label equivalence of the `τ`-side meet labelling is the pulled-back
label equivalence of the original meet labelling. -/
theorem labT_bridge (A B : Permutation) (n : Nat) (p : Int) (hn : 0 < n)
    (hA : A.size = n) (hB : B.size = n)
    (hPA : isPermTable A) (hCA : isCanonical A)
    (hPB : isPermTable B) (hCB : isCanonical B) :
    ∀ a b, a < n → b < n →
      (labRel (meetLabels (dCycles A) (dCycles B) n)
          ((a + n - (p.emod n).toNat) % n) ((b + n - (p.emod n).toNat) % n) ↔
        labRel (meetLabels (dCycles (tau A p)) (dCycles (tau B p)) n) a b) := by
  intro a b ha hb
  have haL : (a + n - (p.emod n).toNat) % n < n := Nat.mod_lt _ hn
  have hbL : (b + n - (p.emod n).toNat) % n < n := Nat.mod_lt _ hn
  unfold labRel
  rw [meetLabels_getD _ _ _ _ haL, meetLabels_getD _ _ _ _ hbL,
    meetLabels_getD _ _ _ _ ha, meetLabels_getD _ _ _ _ hb]
  rw [classMax_eq_iff' haL hbL, classMax_eq_iff' ha hb]
  unfold cyclePair
  rw [dCycles_tau A n p hn hA hPA hCA a ha,
    dCycles_tau A n p hn hA hPA hCA b hb,
    dCycles_tau B n p hn hB hPB hCB a ha,
    dCycles_tau B n p hn hB hPB hCB b hb]
  rw [Prod.mk.injEq, Prod.mk.injEq]
  rw [classMaxOf_eq_iff ha hb, classMaxOf_eq_iff ha hb]
  rw [labShift_getD ha, labShift_getD hb, labShift_getD ha, labShift_getD hb]

/-- Core commutation: `meetCore` of the `τ`-shifted valid factors is `τ` of
the original `meetCore`. -/
theorem meetCore_tau_comm (A B : Permutation) (n : Nat) (p : Int)
    (hn : 0 < n) (hA : A.size = n) (hB : B.size = n)
    (hPA : isPermTable A) (hCA : isCanonical A)
    (hPB : isPermTable B) (hCB : isCanonical B) :
    meetCore (tau A p) (tau B p) = tau (meetCore A B) p := by
  have hpn : (p.emod n).toNat < n := emod_toNat_lt p n hn
  have htA : (tau A p).size = n := by rw [tau_size, hA]
  have htB : (tau B p).size = n := by rw [tau_size, hB]
  have hmsize : (meetCore A B).size = n := meetCore_size A B n hA hB hn
  have hmptw : ∀ j, j < n → (meetCore A B).array_form.getD j 0 =
      cycPred (meetLabels (dCycles A) (dCycles B) n) n j := by
    intro j hj
    rw [meetCore_cycPred_map A B n hA hB hn, getD_map_range hj]
  apply perm_ext
  refine List.ext_getElem ?_ ?_
  · rw [meetCore_cycPred_map _ _ n htA htB hn, List.length_map,
      List.length_range,
      show (tau (meetCore A B) p).array_form.length =
        (tau (meetCore A B) p).size from rfl, tau_size, hmsize]
  · intro i h₁ h₂
    have hin : i < n := by
      have h := h₁
      rw [meetCore_cycPred_map _ _ n htA htB hn, List.length_map,
        List.length_range] at h
      exact h
    rw [← List.getD_eq_getElem _ 0, ← List.getD_eq_getElem _ 0,
      meetCore_cycPred_map _ _ n htA htB hn, getD_map_range hin,
      tau_getD (meetCore A B) p n hmsize hn i hin,
      hmptw _ (Nat.mod_lt _ hn)]
    have hiL : (i + n - (p.emod n).toNat) % n < n := Nat.mod_lt _ hn
    have hspec := cycPred_spec (meetLabels (dCycles A) (dCycles B) n) n _ hiL
    have hshift := isCycPredRel_shift
      (E := labRel (meetLabels (dCycles A) (dCycles B) n)) hn hpn hin hspec
    have hR := isCycPredRel_congr_lt hn hin
      (labT_bridge A B n p hn hA hB hPA hCA hPB hCB) hshift
    have hL := cycPred_spec
      (meetLabels (dCycles (tau A p)) (dCycles (tau B p)) n) n i hin
    exact (isCycPredRel_unique hL hR)

end TauMeet

section ClaimsTau

open MathBraid.Permutation MathBraid.CanonicalFactor

/-- C5: the `τ` automorphism commutes with the meet for canonical factors
`A`, `B` of the same width `n` (valid permutation tables that are unions of
descending cycles) and every integer power `p`:
`τᵖ(meet(A,B)) = meet(τᵖ(A), τᵖ(B))`. -/
theorem C5_tau_meet (A B : Permutation) (n : Nat) (p : Int)
    (hA : A.size = n) (hB : B.size = n)
    (hPA : isPermTable A) (hCA : isCanonical A)
    (hPB : isPermTable B) (hCB : isCanonical B) :
    ∃ z, CanonicalFactor.meet A B = some z ∧
      CanonicalFactor.meet (tau A p) (tau B p) = some (tau z p) := by
  by_cases hn : n = 0
  · subst hn
    have hA0 : A = Permutation.one := by
      obtain ⟨l⟩ := A
      unfold Permutation.size at hA
      rw [List.length_eq_zero] at hA
      subst hA
      rfl
    have hB0 : B = Permutation.one := by
      obtain ⟨l⟩ := B
      unfold Permutation.size at hB
      rw [List.length_eq_zero] at hB
      subst hB
      rfl
    subst hA0
    subst hB0
    exact ⟨Permutation.one, rfl, rfl⟩
  · have hn' : 0 < n := Nat.pos_of_ne_zero hn
    have htA : (tau A p).size = n := by rw [tau_size, hA]
    have htB : (tau B p).size = n := by rw [tau_size, hB]
    refine ⟨meetCore A B, ?_, ?_⟩
    · unfold CanonicalFactor.meet
      rw [if_neg (by omega), if_neg (by omega)]
    · unfold CanonicalFactor.meet
      rw [if_neg (by omega), if_neg (by omega)]
      rw [meetCore_tau_comm A B n p hn' hA hB hPA hCA hPB hCB]

/-- Witness for C5 at the doctest factors of width 7 with power 3. -/
theorem C5_tau_meet_witness :
    ∃ z, CanonicalFactor.meet ⟨[0, 4, 2, 3, 1, 6, 5]⟩
        ⟨[0, 4, 3, 2, 1, 5, 6]⟩ = some z ∧
      CanonicalFactor.meet (tau ⟨[0, 4, 2, 3, 1, 6, 5]⟩ 3)
        (tau ⟨[0, 4, 3, 2, 1, 5, 6]⟩ 3) = some (tau z 3) :=
  C5_tau_meet ⟨[0, 4, 2, 3, 1, 6, 5]⟩ ⟨[0, 4, 3, 2, 1, 5, 6]⟩ 7 3 rfl rfl
    (by decide) (by decide) (by decide) (by decide)

end ClaimsTau

end MathBraid
